import Mathlib

/-!
Verification development for a YouTube comment extraction pipeline.

The development shallowly embeds the two data-shaping stages of the
repository: URL canonicalisation / deduplication / reachability
partitioning, and the raw comment-dump parser (in its two variants:
the simple one in `Automated_Selenium_Processing.py` and the richer one
in `sentiment_dashboard_prototype.py`).

Python strings are embedded as `List Char`; Python functions that can
raise are embedded as `Except PyErr`-valued functions where the
exceptional control flow of the source (IndexError on out-of-range list
indexing, ValueError from `int()`) is made explicit.
-/

set_option maxRecDepth 10000

/-- Embedding of a Python `str` as a list of characters. -/
abbrev Str := List Char

deriving instance DecidableEq for Except

/-- The Python exceptions that the embedded code can raise. -/
inductive PyErr where
  | indexError : PyErr
  | valueError : PyErr
deriving DecidableEq

/-- Embedding of Python `str.strip()` (whitespace stripped from both ends).
Lean's `Char.isWhitespace` covers the ASCII whitespace present in the
repository's data; exotic Unicode whitespace is not modelled. -/
def pyStrip (s : Str) : Str :=
  ((s.dropWhile Char.isWhitespace).reverse.dropWhile Char.isWhitespace).reverse

/-- Embedding of Python `str.rstrip()`. -/
def pyRstrip (s : Str) : Str :=
  (s.reverse.dropWhile Char.isWhitespace).reverse

/-- Embedding of Python `str.lower()` (ASCII case folding, which is all the
repository's hosts need). -/
def lowerStr (s : Str) : Str := s.map Char.toLower

/-- Embedding of Python `s.split(c)` for a one-character separator:
always returns at least one (possibly empty) piece. -/
def splitOnChar (c : Char) : Str → List Str
  | [] => [[]]
  | a :: rest =>
    if a = c then [] :: splitOnChar c rest
    else
      match splitOnChar c rest with
      | [] => [[a]]
      | h :: t => (a :: h) :: t

/-- First occurrence of the substring `sep` in `s` (Python `str.find`),
as an index, or `none` when absent. -/
def findSub (sep : Str) : Str → Option Nat
  | [] => if sep = [] then some 0 else none
  | c :: rest =>
    if sep.isPrefixOf (c :: rest) then some 0
    else (findSub sep rest).map (· + 1)

/-- Worker for `splitOnStr`; `fuel` only bounds the recursion and
`splitOnStr` always supplies enough of it (each step removes at least the
nonempty separator). -/
def splitOnStrGo (sep : Str) : Nat → Str → List Str
  | 0, s => [s]
  | fuel + 1, s =>
    match findSub sep s with
    | none => [s]
    | some i => s.take i :: splitOnStrGo sep fuel (s.drop (i + sep.length))

/-- Embedding of Python `s.split(sep)` for a nonempty string separator:
non-overlapping occurrences, scanned left to right. -/
def splitOnStr (sep s : Str) : List Str :=
  splitOnStrGo sep (s.length + 1) s

/-- Embedding of Python `s.replace(pat, repl)` for a nonempty `pat`
(`replace` is `repl.join(s.split(pat))`). -/
def replaceStr (pat repl s : Str) : Str :=
  List.intercalate repl (splitOnStr pat s)

/-- Embedding of Python `str.splitlines()` for `\n`-delimited text.
(`splitlines` also recognises `\r` and friends and drops a trailing empty
piece; every use in the repository immediately discards blank lines, which
absorbs that difference for the `\n`-delimited extension dumps.) -/
def splitLines (s : Str) : List Str := splitOnChar '\n' s

/-- Embedding of the Python substring test `pat in s`. -/
def containsSub (pat s : Str) : Bool := (findSub pat s).isSome

/-- Embedding of Python `int(s)` on the decimal literals the repository
feeds it: optional surrounding whitespace, optional single sign, ASCII
digits.  Anything else raises ValueError, as `int` does.  (Python's
underscore-grouped and non-ASCII-digit literals never occur here and are
treated as errors.) -/
def pyInt (s : Str) : Except PyErr Int :=
  let t := pyStrip s
  match t with
  | [] => .error .valueError
  | c :: rest =>
    if c = '+' then
      if !rest.isEmpty && rest.all Char.isDigit then
        .ok (rest.foldl (fun a ch => a * 10 + ((ch.toNat : Int) - 48)) 0)
      else .error .valueError
    else if c = '-' then
      if !rest.isEmpty && rest.all Char.isDigit then
        .ok (-(rest.foldl (fun a ch => a * 10 + ((ch.toNat : Int) - 48)) 0))
      else .error .valueError
    else
      if t.all Char.isDigit then
        .ok (t.foldl (fun a ch => a * 10 + ((ch.toNat : Int) - 48)) 0)
      else .error .valueError

/-- Embedding of Python `arr[i]` on a list: out-of-range indexing raises
IndexError (nonnegative indices only, which is all the source uses). -/
def getItem (arr : List Str) (i : Nat) : Except PyErr Str :=
  match arr.get? i with
  | some x => .ok x
  | none => .error .indexError

/- ## urlparse / parse_qs

The sources call `urllib.parse.urlparse` and `urllib.parse.parse_qs`;
the fragment of their behaviour the scripts rely on is embedded below,
following CPython's `urlsplit`: scheme split at the first `:` when the
part before it is a valid scheme, `//`-prefixed netloc up to the first
`/`, `?` or `#`, then fragment split at the first `#`, then query split
at the first `?`.  (`;`-parameter splitting never fires on these URLs.) -/

/-- Result of the embedded `urlparse`. -/
structure UrlParts where
  scheme : Str
  netloc : Str
  path : Str
  query : Str
deriving DecidableEq

/-- Valid scheme prefix: first character an ASCII letter, the rest
letters, digits, `+`, `-` or `.` (CPython's `scheme_chars`). -/
def schemeOk (s : Str) : Bool :=
  match s with
  | [] => false
  | c :: _ => c.isAlpha && s.all (fun a => a.isAlpha || a.isDigit || a == '+' || a == '-' || a == '.')

/-- Scheme split of `urlsplit`: at the first `:`, when the part before it
is a valid scheme; the scheme is lower-cased. -/
def splitScheme (s : Str) : Str × Str :=
  let pre := s.takeWhile (· != ':')
  match s.dropWhile (· != ':') with
  | [] => ([], s)
  | _ :: rest => if pre ≠ [] ∧ schemeOk pre then (lowerStr pre, rest) else ([], s)

/-- Netloc split of `urlsplit`: only after a literal `//`, up to the first
`/`, `?` or `#`. -/
def splitNetloc (s : Str) : Str × Str :=
  match s with
  | '/' :: '/' :: rest =>
    (rest.takeWhile (fun c => c != '/' && c != '?' && c != '#'),
     rest.dropWhile (fun c => c != '/' && c != '?' && c != '#'))
  | _ => ([], s)

/-- `s.split(c, 1)` as a pair: the part before the first `c`, and the part
after it (empty when `c` is absent, matching how `urlsplit` leaves the
query and fragment empty). -/
def splitFirstAt (c : Char) (s : Str) : Str × Str :=
  (s.takeWhile (· != c), (s.dropWhile (· != c)).tail)

/-- Embedding of `urllib.parse.urlparse` restricted to the four fields the
scripts read. -/
def urlparse (s : Str) : UrlParts :=
  let (scheme, r1) := splitScheme s
  let (netloc, r2) := splitNetloc r1
  let (r3, _fragment) := splitFirstAt '#' r2
  let (path, query) := splitFirstAt '?' r3
  ⟨scheme, netloc, path, query⟩

/-- Embedding of Python `+`-decoding inside `parse_qs` (`unquote_plus`).
Percent-escapes never occur in the repository's query strings and are left
untouched. -/
def unquotePlus (s : Str) : Str := s.map (fun c => if c = '+' then ' ' else c)

/-- Embedding of `urllib.parse.parse_qsl` with the defaults the source
uses: split on `&`, skip empty chunks, skip chunks without `=`, skip blank
values. -/
def parseQsl (qs : Str) : List (Str × Str) :=
  (splitOnChar '&' qs).filterMap (fun nv =>
    if nv = [] then none
    else
      match (nv.dropWhile (· != '=')) with
      | [] => none
      | _ :: value =>
        if value = [] then none
        else some (unquotePlus (nv.takeWhile (· != '=')), unquotePlus value))

/-- `parse_qs(query).get("v", [""])[0]`: the first value bound to key `v`,
or the empty string. -/
def getV (ps : List (Str × Str)) : Str :=
  match ps.find? (fun p => p.1 == "v".data) with
  | some p => p.2
  | none => []

/- ## normalize_url -/

/-- A character allowed in a video id, the class `[A-Za-z0-9_-]` of the
source's `re.fullmatch`. -/
def isVidChar (c : Char) : Bool :=
  ('A' ≤ c && c ≤ 'Z') || ('a' ≤ c && c ≤ 'z') || ('0' ≤ c && c ≤ '9') || c == '_' || c == '-'

/-- `re.fullmatch(r"[A-Za-z0-9_-]{11}", vid)` as a Boolean. -/
def fullmatch11 (vid : Str) : Bool :=
  vid.length == 11 && vid.all isVidChar

/-- The lower-cased netloc of the stripped URL (`parsed.netloc.lower()`). -/
def hostOf (url : Str) : Str := lowerStr (urlparse (pyStrip url)).netloc

/-- The path of the stripped URL with leading slashes removed
(`parsed.path.lstrip("/")`). -/
def pathOf (url : Str) : Str := (urlparse (pyStrip url)).path.dropWhile (· == '/')

/-- The query of the stripped URL (`parsed.query`). -/
def queryOf (url : Str) : Str := (urlparse (pyStrip url)).query

/-- The branchy `video_id` assignment of `normalize_url`
(`Automated_Selenium_Processing.py` lines 41-52): `none` embeds the
source's early `return None` on a foreign host or an unrecognised
YouTube path, `some vid` the value of `video_id` when control reaches the
final `re.fullmatch` check. -/
def video_id_of (host path query : Str) : Option Str :=
  if host = "youtu.be".data then
    some (path.takeWhile (· != '?'))
  else if containsSub "youtube.com".data host then
    if "watch".data.isPrefixOf path then some (getV (parseQsl query))
    else if "shorts/".data.isPrefixOf path then
      some ((splitOnChar '/' path).getD 1 [])
    else none
  else none

/-- The canonical URL built on success:
`f"https://www.youtube.com/watch?v={video_id}"`. -/
def canonicalOf (vid : Str) : Str := "https://www.youtube.com/watch?v=".data ++ vid

/-- Embedding of `normalize_url` (`Automated_Selenium_Processing.py`
lines 34-55).  The source strips the input once and then reads host, path
and query from the one parse; `hostOf`/`pathOf`/`queryOf` recompute that
same parse, so the value is unchanged. -/
def normalize_url (url : Str) : Option Str :=
  if pyStrip url = [] then none
  else
    match video_id_of (hostOf url) (pathOf url) (queryOf url) with
    | none => none
    | some vid => if fullmatch11 vid then some (canonicalOf vid) else none

/-- The `video_id` assignment of the dashboard variant's `normalize_url`
(`sentiment_dashboard_prototype.py` lines 40-49): identical to
`video_id_of` except that a foreign host leaves `vid = ""` and falls
through to the `fullmatch` check instead of returning early. -/
def video_id_of_dash (host path query : Str) : Option Str :=
  if host = "youtu.be".data then
    some (path.takeWhile (· != '?'))
  else if containsSub "youtube.com".data host then
    if "watch".data.isPrefixOf path then some (getV (parseQsl query))
    else if "shorts/".data.isPrefixOf path then
      some ((splitOnChar '/' path).getD 1 [])
    else none
  else some []

/-- Embedding of the dashboard variant's `normalize_url`
(`sentiment_dashboard_prototype.py` lines 33-52). -/
def normalize_url_dash (url : Str) : Option Str :=
  if pyStrip url = [] then none
  else
    match video_id_of_dash (hostOf url) (pathOf url) (queryOf url) with
    | none => none
    | some vid => if fullmatch11 vid then some (canonicalOf vid) else none

/- ## Link set resolution (dedupe + reachability) -/

/-- Python truthiness of the `norm` result in `if not norm:`:
`None` and the empty string are falsy. -/
def normFalsy (o : Option Str) : Bool :=
  match o with
  | none => true
  | some s => s.isEmpty

/-- The normalise-and-dedupe loop of `main`
(`Automated_Selenium_Processing.py` lines 136-145); `seen` embeds the
Python set by membership.  Returns `(cleaned, malformed, duplicates)`. -/
def dedupeGo : List Str → List Str → List Str → List Str → List Str →
    List Str × List Str × List Str
  | [], _seen, cleaned, malformed, dups => (cleaned, malformed, dups)
  | u :: rest, seen, cleaned, malformed, dups =>
    match normalize_url u with
    | none => dedupeGo rest seen cleaned (malformed ++ [u]) dups
    | some n =>
      if n = [] then dedupeGo rest seen cleaned (malformed ++ [u]) dups
      else if n ∈ seen then dedupeGo rest seen cleaned malformed (dups ++ [n])
      else dedupeGo rest (n :: seen) (cleaned ++ [n]) malformed dups

/-- `(cleaned, malformed, duplicates)` for a batch of raw URLs. -/
def dedupe (urls : List Str) : List Str × List Str × List Str :=
  dedupeGo urls [] [] [] []

/-- Outcome of one `requests.get` probe: an HTTP status, or a
transport-level failure (timeout, DNS failure, connection refused), which
`requests` surfaces as a `RequestException`. -/
inductive ProbeOutcome where
  | status : Nat → ProbeOutcome
  | transportError : ProbeOutcome
deriving DecidableEq

/-- Embedding of `is_url_reachable` (`Automated_Selenium_Processing.py`
lines 57-61): one probe; status 200 means reachable; the
`except requests.RequestException: return False` arm makes the function
total, so no exception escapes. -/
def is_url_reachable (probe : Str → ProbeOutcome) (url : Str) : Bool :=
  match probe url with
  | .status code => code == 200
  | .transportError => false

/-- The reachability loop of `main` (lines 148-150), instrumented with a
trace of the URLs probed (third component) so that "probed exactly once"
is visible in the embedding.  Returns `(reachable, broken, probed)`. -/
def probeLoop (probe : Str → ProbeOutcome) : List Str → List Str × List Str × List Str
  | [] => ([], [], [])
  | u :: rest =>
    let (r, b, t) := probeLoop probe rest
    if is_url_reachable probe u then (u :: r, b, u :: t) else (r, u :: b, u :: t)

/-- The four labelled sequences `main` derives from its input, plus the
probe trace. -/
structure Resolution where
  cleaned : List Str
  malformed : List Str
  duplicates : List Str
  reachable : List Str
  unreachable : List Str
  probed : List Str
deriving DecidableEq

/-- The URL-resolution stage of `main`
(`Automated_Selenium_Processing.py` lines 136-150). -/
def resolve (probe : Str → ProbeOutcome) (urls : List Str) : Resolution :=
  let (cleaned, malformed, dups) := dedupe urls
  let (r, b, t) := probeLoop probe cleaned
  ⟨cleaned, malformed, dups, r, b, t⟩

/-- What `main` does after resolution (lines 159-161): when `reachable`
is empty it reports and returns — an explicit empty-result state — and
otherwise goes on to scrape exactly the reachable list. -/
inductive MainOutcome where
  | noVideos : MainOutcome
  | proceeds : List Str → MainOutcome
deriving DecidableEq

/-- The control-flow skeleton of `main` around the resolver: the scraping
work that follows is out of scope and represented by the list it would
iterate over. -/
def main_run (probe : Str → ProbeOutcome) (urls : List Str) : MainOutcome :=
  let r := resolve probe urls
  if r.reachable = [] then .noVideos else .proceeds r.reachable

/- ## Comment block parsing -/

/-- A parsed comment record: the dict built by the parsers.  `parent_id`
is `none` when the dict has no `"parent_id"` key (parents, and every
record of the simple variant) and `some pid` when the reply loop stamps
one. -/
structure CRec where
  username : Str
  profile_url : Str
  comment_url : Str
  posted : Str
  edited : Bool
  likes : Int
  replies : Int
  comment : Str
  parent_id : Option Str
deriving DecidableEq

/-- `p.split(":", 1)[1]`: the part after the first colon.  Both call
sites guard with `p.startswith("like:")` / `p.startswith("reply:")`, so
the colon is present and the Python index cannot fail. -/
def afterColon (p : Str) : Str := (p.dropWhile (· != ':')).tail

/-- The strip-`(edited)` step shared by both metadata parsers
(`if "(edited)" in meta: meta = meta.replace("(edited)", "").strip()`).
Returns the `edited` flag and the remaining metadata line. -/
def stripEdited (meta : Str) : Bool × Str :=
  if containsSub "(edited)".data meta then
    (true, pyStrip (replaceStr "(edited)".data [] meta))
  else (false, meta)

/-- The `for p in parts[1:]` loop of the simple variant
(`Automated_Selenium_Processing.py` lines 124-128): `like:`/`reply:`
segments set the counters via `int`, which can raise ValueError; other
segments are skipped. -/
def metaFoldSimple : List Str → Int → Int → Except PyErr (Int × Int)
  | [], likes, replies => .ok (likes, replies)
  | p :: rest, likes, replies =>
    if "like:".data.isPrefixOf p then
      match pyInt (afterColon p) with
      | .error e => .error e
      | .ok v => metaFoldSimple rest v replies
    else if "reply:".data.isPrefixOf p then
      match pyInt (afterColon p) with
      | .error e => .error e
      | .ok v => metaFoldSimple rest likes v
    else metaFoldSimple rest likes replies

/-- The metadata-line parsing of the simple variant (lines 118-128):
`(edited)` detection, split on `|`, `parts[0]` becomes `posted` (the
split is never empty), the rest feed `metaFoldSimple`.  Result:
`(edited, posted, likes, replies)`. -/
def parseMetaSimple (meta : Str) : Except PyErr (Bool × Str × Int × Int) :=
  let (ed, meta) := stripEdited meta
  let parts := (splitOnChar '|' meta).map pyStrip
  match metaFoldSimple parts.tail 0 0 with
  | .error e => .error e
  | .ok (likes, replies) => .ok (ed, parts.headD [], likes, replies)

/-- The stripped, blank-filtered line list of the simple parser
(`[l.strip() for l in block.splitlines() if l.strip()]`). -/
def simpleLines (block : Str) : List Str :=
  ((splitLines block).map pyStrip).filter (fun l => !l.isEmpty)

/-- Embedding of the simple variant's `parse_comment_block`
(`Automated_Selenium_Processing.py` lines 104-130).  The source checks
only `lines[0]` before indexing `lines[1]`..`lines[4]`, so a marked block
with fewer than five surviving lines raises IndexError. -/
def parse_comment_block_simple (block : Str) : Except PyErr (Option CRec) :=
  let lines := simpleLines block
  match lines with
  | [] => .ok none
  | l0 :: rest =>
    if !containsSub "[COMMENT]".data l0 then .ok none
    else
      match rest with
      | l1 :: l2 :: l3 :: l4 :: body =>
        match parseMetaSimple l4 with
        | .error e => .error e
        | .ok (ed, po, li, re) =>
          .ok (some { username := l1, profile_url := l2, comment_url := l3,
                      posted := po, edited := ed, likes := li, replies := re,
                      comment := List.intercalate ['\n'] body, parent_id := none })
      | _ => .error .indexError

/-- The username-suppression toggle of the dashboard script
(`usernameToggle: bool = False`). -/
def usernameToggle : Bool := false

/-- The `for part in ...` loop of `_parse_head`
(`sentiment_dashboard_prototype.py` lines 98-104): it runs over ALL
segments, and a segment matching neither `like:` nor `reply:` is written
to `posted`, so the last unrecognised segment wins. -/
def metaFoldDash : List Str → Str → Int → Int → Except PyErr (Str × Int × Int)
  | [], posted, likes, replies => .ok (posted, likes, replies)
  | p :: rest, posted, likes, replies =>
    if "like:".data.isPrefixOf p then
      match pyInt (afterColon p) with
      | .error e => .error e
      | .ok v => metaFoldDash rest posted v replies
    else if "reply:".data.isPrefixOf p then
      match pyInt (afterColon p) with
      | .error e => .error e
      | .ok v => metaFoldDash rest posted likes v
    else metaFoldDash rest p likes replies

/-- Embedding of `_parse_head` (`sentiment_dashboard_prototype.py` lines
83-105): reads `arr[idx+1]` only when the toggle is on (the conditional
expression short-circuits), then `arr[idx+2]`..`arr[idx+4]`, parses the
metadata line, and returns the record plus the next unread index
`idx + 5`.  The record's `comment` is filled in later by the caller. -/
def parse_head (arr : List Str) (idx : Nat) : Except PyErr (CRec × Nat) :=
  match (if usernameToggle then getItem arr (idx + 1) else .ok []) with
  | .error e => .error e
  | .ok username =>
    match getItem arr (idx + 2) with
    | .error e => .error e
    | .ok profile =>
      match getItem arr (idx + 3) with
      | .error e => .error e
      | .ok curl =>
        match getItem arr (idx + 4) with
        | .error e => .error e
        | .ok meta =>
          let (ed, meta) := stripEdited meta
          let parts := (splitOnChar '|' meta).map pyStrip
          match metaFoldDash parts [] 0 0 with
          | .error e => .error e
          | .ok (po, li, re) =>
            .ok ({ username := username, profile_url := profile, comment_url := curl,
                   posted := po, edited := ed, likes := li, replies := re,
                   comment := [], parent_id := none }, idx + 5)

/-- The right-stripped, blank-filtered line list of the dashboard parser
(`[ln.rstrip() for ln in block.splitlines() if ln.strip()]`). -/
def dashLines (block : Str) : List Str :=
  (splitLines block).filterMap (fun ln =>
    if (pyStrip ln).isEmpty then none else some (pyRstrip ln))

/-- The reply-scanning loop of the dashboard `parse_comment_block`
(lines 126-137), over the suffix of the line list that follows the
`Replies:` marker.  A non-`[REPLY]` line is skipped; at a `[REPLY]` line
`_parse_head` reads the five header lines, the reply text runs to the
next `[REPLY]` (or the end), and the record is stamped with the parent's
`comment_url`.  `fuel` only bounds the recursion: each step consumes at
least one line, so `fuel = ls.length` (what `repliesLoop` passes) always
suffices. -/
def repliesLoopGo (pid : Str) : Nat → List Str → Except PyErr (List CRec)
  | 0, _ => .ok []
  | fuel + 1, ls =>
    match ls with
    | [] => .ok []
    | l :: rest =>
      if l ≠ "[REPLY]".data then repliesLoopGo pid fuel rest
      else
        match parse_head (l :: rest) 0 with
        | .error e => .error e
        | .ok (rep, _) =>
          let text := (rest.drop 4).takeWhile (· != "[REPLY]".data)
          let rems := (rest.drop 4).dropWhile (· != "[REPLY]".data)
          match repliesLoopGo pid fuel rems with
          | .error e => .error e
          | .ok more =>
            .ok ({ rep with comment := List.intercalate ['\n'] text,
                            parent_id := some pid } :: more)

/-- The reply loop started on the lines after the `Replies:` marker. -/
def repliesLoop (pid : Str) (ls : List Str) : Except PyErr (List CRec) :=
  repliesLoopGo pid ls.length ls

/-- Embedding of the dashboard variant's `parse_comment_block`
(`sentiment_dashboard_prototype.py` lines 108-139): `None` for a block
whose first surviving line lacks `[COMMENT]`; otherwise the parent header
via `_parse_head` (which raises IndexError past the end), the body up to
a literal `Replies:` line, and the reply loop after it. -/
def parse_comment_block_dash (block : Str) :
    Except PyErr (Option (CRec × List CRec)) :=
  let lines := dashLines block
  match lines with
  | [] => .ok none
  | l0 :: _ =>
    if !containsSub "[COMMENT]".data l0 then .ok none
    else
      match parse_head lines 0 with
      | .error e => .error e
      | .ok (parent0, i) =>
        let body := (lines.drop i).takeWhile (· != "Replies:".data)
        let parent := { parent0 with comment := List.intercalate ['\n'] body }
        match (lines.drop i).dropWhile (· != "Replies:".data) with
        | [] => .ok (some (parent, []))
        | _ :: afterMarker =>
          match repliesLoop parent.comment_url afterMarker with
          | .error e => .error e
          | .ok reps => .ok (some (parent, reps))

/- ## Dump-level collection -/

/-- The block list of the dashboard's `get_comments` (line 173):
`[b.strip() for b in raw_dump.split("#####") if b.strip()]`. -/
def blocksOfDash (raw : Str) : List Str :=
  (splitOnStr "#####".data raw).filterMap (fun b =>
    if (pyStrip b).isEmpty then none else some (pyStrip b))

/-- The parse loop of the dashboard's `get_comments` (lines 174-179):
parents are appended to `tops` and replies extended onto `children`, in
block order. -/
def collectDash : List Str → Except PyErr (List CRec × List CRec)
  | [] => .ok ([], [])
  | b :: bs =>
    match parse_comment_block_dash b with
    | .error e => .error e
    | .ok none => collectDash bs
    | .ok (some (p, rs)) =>
      match collectDash bs with
      | .error e => .error e
      | .ok (tops, children) => .ok (p :: tops, rs ++ children)

/-- The record list of the dashboard's `get_comments` (line 180):
`parsed = tops + children` — all parents first, then all replies. -/
def parse_dump_dash (raw : Str) : Except PyErr (List CRec) :=
  match collectDash (blocksOfDash raw) with
  | .error e => .error e
  | .ok (tops, children) => .ok (tops ++ children)

/-- The block list of the simple variant's `main` (line 171):
`re.findall(r'#####(.*?)#####', raw, re.DOTALL)` pairs up consecutive
`#####` occurrences left to right, so the matches are the pieces of
`raw.split("#####")` standing between a consumed opening and closing
delimiter. -/
def reMatchesHash : List Str → List Str
  | _ :: b :: c :: rest => b :: reMatchesHash (c :: rest)
  | _ => []

/-- Worker note: `reMatchesHash` receives the full split; a piece is a
match only when a further piece witnesses its closing `#####`. -/
def blocksOfSimple (raw : Str) : List Str :=
  match splitOnStr "#####".data raw with
  | parts => reMatchesHash parts

/-- The parse loop of the simple variant's `main` (line 172):
`[c for b in blocks if (c := parse_comment_block(b))]`. -/
def collectSimple : List Str → Except PyErr (List CRec)
  | [] => .ok []
  | b :: bs =>
    match parse_comment_block_simple b with
    | .error e => .error e
    | .ok c =>
      match collectSimple bs with
      | .error e => .error e
      | .ok rest =>
        .ok (match c with
             | none => rest
             | some r => r :: rest)

/-- The record list one video contributes in the simple variant. -/
def parse_dump_simple (raw : Str) : Except PyErr (List CRec) :=
  collectSimple (blocksOfSimple raw)

/-- A hand-built dump with one parent block containing two `[REPLY]`
sub-blocks (used to check the three-record output shape). -/
def exDumpC8 : Str :=
  "#####\n[COMMENT] x\nuser\npurl\nCURL1\nnow|reply:2\nbody\nReplies:\n[REPLY]\nu2\npu2\nCURL2\nnow2|like:0\nrA\n[REPLY]\nu3\npu3\nCURL3\nnow3|like:1\nrB\n#####".data

/-- The record list `parse_dump_dash` produces for `exDumpC8`: the parent
first, then its two replies, both stamped with the parent's
`comment_url`. -/
def exOutC8 : List CRec :=
  [{ username := [], profile_url := "purl".data, comment_url := "CURL1".data,
     posted := "now".data, edited := false, likes := 0, replies := 2,
     comment := "body".data, parent_id := none },
   { username := [], profile_url := "pu2".data, comment_url := "CURL2".data,
     posted := "now2".data, edited := false, likes := 0, replies := 0,
     comment := "rA".data, parent_id := some "CURL1".data },
   { username := [], profile_url := "pu3".data, comment_url := "CURL3".data,
     posted := "now3".data, edited := false, likes := 1, replies := 0,
     comment := "rB".data, parent_id := some "CURL1".data }]

/-- A dump with two parent blocks sharing the comment URL `SAME` and one
reply under the first: the reply resolves to TWO parent records. -/
def cexDumpC8 : Str :=
  "#####\n[COMMENT] a\nu1\np1\nSAME\nnow|like:0\nbodyA\nReplies:\n[REPLY]\nu2\np2\nCURL2\nnow|like:0\nrtext\n#####\n[COMMENT] b\nu3\np3\nSAME\nnow|like:0\nbodyB\n#####".data

/-- The record list `parse_dump_dash` produces for `cexDumpC8`. -/
def cexOutC8 : List CRec :=
  [{ username := [], profile_url := "p1".data, comment_url := "SAME".data,
     posted := "now".data, edited := false, likes := 0, replies := 0,
     comment := "bodyA".data, parent_id := none },
   { username := [], profile_url := "p3".data, comment_url := "SAME".data,
     posted := "now".data, edited := false, likes := 0, replies := 0,
     comment := "bodyB".data, parent_id := none },
   { username := [], profile_url := "p2".data, comment_url := "CURL2".data,
     posted := "now".data, edited := false, likes := 0, replies := 0,
     comment := "rtext".data, parent_id := some "SAME".data }]

/- ## Generic list lemmas used throughout -/

theorem takeWhile_append_all {α} (p : α → Bool) (xs ys : List α)
    (h : ∀ a ∈ xs, p a = true) :
    (xs ++ ys).takeWhile p = xs ++ ys.takeWhile p := by
  induction xs with
  | nil => simp
  | cons a xs ih =>
    have ha : p a = true := h a (by simp)
    simp only [List.cons_append, List.takeWhile_cons, ha, if_true]
    rw [ih (fun b hb => h b (by simp [hb]))]

theorem dropWhile_append_all {α} (p : α → Bool) (xs ys : List α)
    (h : ∀ a ∈ xs, p a = true) :
    (xs ++ ys).dropWhile p = ys.dropWhile p := by
  induction xs with
  | nil => simp
  | cons a xs ih =>
    have ha : p a = true := h a (by simp)
    simp only [List.cons_append, List.dropWhile_cons, ha, if_true]
    exact ih (fun b hb => h b (by simp [hb]))

theorem takeWhile_all {α} (p : α → Bool) (xs : List α)
    (h : ∀ a ∈ xs, p a = true) : xs.takeWhile p = xs := by
  have := takeWhile_append_all p xs [] h
  simpa using this

theorem dropWhile_all {α} (p : α → Bool) (xs : List α)
    (h : ∀ a ∈ xs, p a = true) : xs.dropWhile p = [] := by
  have := dropWhile_append_all p xs [] h
  simpa using this

theorem mem_of_mem_takeWhile {α} {p : α → Bool} {xs : List α} {a : α}
    (h : a ∈ xs.takeWhile p) : a ∈ xs :=
  (List.takeWhile_sublist p).mem h

theorem mem_of_mem_dropWhile {α} {p : α → Bool} {xs : List α} {a : α}
    (h : a ∈ xs.dropWhile p) : a ∈ xs :=
  (List.dropWhile_sublist p).mem h

theorem mem_of_mem_pyStrip {s : Str} {c : Char} (h : c ∈ pyStrip s) : c ∈ s := by
  unfold pyStrip at h
  rw [List.mem_reverse] at h
  have h1 := mem_of_mem_dropWhile h
  rw [List.mem_reverse] at h1
  exact mem_of_mem_dropWhile h1

theorem mem_of_mem_pyRstrip {s : Str} {c : Char} (h : c ∈ pyRstrip s) : c ∈ s := by
  unfold pyRstrip at h
  rw [List.mem_reverse] at h
  have h1 := mem_of_mem_dropWhile h
  rw [List.mem_reverse] at h1
  exact h1

theorem pyStrip_no_ws {s : Str} (h : ∀ c ∈ s, c.isWhitespace = false) :
    pyStrip s = s := by
  unfold pyStrip
  have h1 : s.dropWhile Char.isWhitespace = s := by
    cases s with
    | nil => rfl
    | cons a t =>
      rw [List.dropWhile_cons, h a (by simp)]
      simp
  rw [h1]
  have h2 : s.reverse.dropWhile Char.isWhitespace = s.reverse := by
    cases hr : s.reverse with
    | nil => rfl
    | cons a t =>
      rw [List.dropWhile_cons, h a (by rw [← List.mem_reverse, hr]; simp)]
      simp
  rw [h2, List.reverse_reverse]

theorem isPrefixOf_append_self {α} [BEq α] [LawfulBEq α] (xs ys : List α) :
    xs.isPrefixOf (xs ++ ys) = true := by
  induction xs with
  | nil => simp [List.isPrefixOf]
  | cons a t ih => simp [List.isPrefixOf, ih]

theorem splitOnChar_ne_nil (c : Char) (s : Str) : splitOnChar c s ≠ [] := by
  cases s with
  | nil => simp [splitOnChar]
  | cons a rest =>
    unfold splitOnChar
    by_cases h : a = c
    · simp [h]
    · simp only [h, if_false]
      cases splitOnChar c rest with
      | nil => simp
      | cons x t => simp

theorem splitOnChar_no_sep (c : Char) (s : Str)
    (h : ∀ a ∈ s, (a == c) = false) : splitOnChar c s = [s] := by
  induction s with
  | nil => rfl
  | cons a rest ih =>
    unfold splitOnChar
    have ha : ¬ a = c := by
      have := h a (by simp)
      simpa using this
    simp only [ha, if_false]
    rw [ih (fun b hb => h b (by simp [hb]))]

theorem splitOnChar_append_sep (c : Char) (xs ys : Str)
    (h : ∀ a ∈ xs, (a == c) = false) :
    splitOnChar c (xs ++ c :: ys) = xs :: splitOnChar c ys := by
  induction xs with
  | nil => simp [splitOnChar]
  | cons a t ih =>
    have ha : ¬ a = c := by
      have := h a (by simp)
      simpa using this
    have ihe := ih (fun b hb => h b (by simp [hb]))
    rw [List.cons_append]
    show splitOnChar c (a :: (t ++ c :: ys)) = (a :: t) :: splitOnChar c ys
    rw [splitOnChar]
    simp only [ha, if_false]
    rw [ihe]

theorem mem_of_mem_splitOnChar {c : Char} {s p : Str} {a : Char}
    (hp : p ∈ splitOnChar c s) (ha : a ∈ p) : a ∈ s := by
  induction s generalizing p with
  | nil =>
    simp [splitOnChar] at hp
    subst hp
    simp at ha
  | cons b rest ih =>
    unfold splitOnChar at hp
    by_cases hb : b = c
    · simp only [hb, if_true] at hp
      rcases List.mem_cons.mp hp with h | h
      · subst h; simp at ha
      · exact List.mem_cons_of_mem _ (ih h ha)
    · simp only [hb, if_false] at hp
      cases hsp : splitOnChar c rest with
      | nil => exact absurd hsp (splitOnChar_ne_nil c rest)
      | cons x t =>
        rw [hsp] at hp
        rcases List.mem_cons.mp hp with h | h
        · subst h
          rcases List.mem_cons.mp ha with h' | h'
          · simp [h']
          · have hx : x ∈ splitOnChar c rest := by rw [hsp]; simp
            exact List.mem_cons_of_mem _ (ih hx h')
        · have hx : p ∈ splitOnChar c rest := by rw [hsp]; simp [h]
          exact List.mem_cons_of_mem _ (ih hx ha)

/- ## Character-class lemmas -/

theorem vidChar_bne {c x : Char} (h : isVidChar c = true)
    (hx : isVidChar x = false) : (c != x) = true := by
  rw [bne_iff_ne]
  rintro rfl
  rw [h] at hx
  cases hx

theorem vidChar_not_ws {c : Char} (h : isVidChar c = true) :
    c.isWhitespace = false := by
  cases hw : c.isWhitespace with
  | false => rfl
  | true =>
    exfalso
    simp only [Char.isWhitespace, Bool.or_eq_true, decide_eq_true_eq] at hw
    rcases hw with ((rfl | rfl) | rfl) | rfl <;> simp [isVidChar] at h

/- ## Subset lemmas for the metadata-line machinery -/

theorem mem_of_mem_take {α} {xs : List α} {n : Nat} {a : α}
    (h : a ∈ xs.take n) : a ∈ xs :=
  (List.take_sublist n xs).mem h

theorem mem_of_mem_drop {α} {xs : List α} {n : Nat} {a : α}
    (h : a ∈ xs.drop n) : a ∈ xs :=
  (List.drop_sublist n xs).mem h

theorem mem_of_mem_tail {α} {xs : List α} {a : α}
    (h : a ∈ xs.tail) : a ∈ xs :=
  (List.tail_sublist xs).mem h

theorem mem_of_mem_afterColon {p : Str} {a : Char} (h : a ∈ afterColon p) :
    a ∈ p :=
  mem_of_mem_dropWhile (mem_of_mem_tail h)

theorem mem_of_mem_splitOnStrGo {sep : Str} {fuel : Nat} {s p : Str} {a : Char}
    (hp : p ∈ splitOnStrGo sep fuel s) (ha : a ∈ p) : a ∈ s := by
  induction fuel generalizing s p with
  | zero =>
    simp [splitOnStrGo] at hp
    subst hp; exact ha
  | succ fuel ih =>
    unfold splitOnStrGo at hp
    cases hf : findSub sep s with
    | none =>
      rw [hf] at hp
      simp at hp
      subst hp; exact ha
    | some i =>
      rw [hf] at hp
      rcases List.mem_cons.mp hp with h | h
      · subst h; exact mem_of_mem_take ha
      · exact mem_of_mem_drop (ih h ha)

theorem mem_of_mem_splitOnStr {sep s p : Str} {a : Char}
    (hp : p ∈ splitOnStr sep s) (ha : a ∈ p) : a ∈ s :=
  mem_of_mem_splitOnStrGo hp ha

theorem mem_intersperse_nil {parts : List Str} {l : Str}
    (hl : l ∈ List.intersperse [] parts) : l = [] ∨ l ∈ parts := by
  induction parts with
  | nil => simp [List.intersperse] at hl
  | cons x t ih =>
    cases t with
    | nil =>
      simp [List.intersperse] at hl
      right; simp [hl]
    | cons y t2 =>
      rw [List.intersperse_cons_cons] at hl
      rcases List.mem_cons.mp hl with h1 | h1
      · right; simp [h1]
      · rcases List.mem_cons.mp h1 with h2 | h2
        · left; exact h2
        · rcases ih h2 with h3 | h3
          · left; exact h3
          · right; exact List.mem_cons_of_mem _ h3

theorem mem_of_mem_intercalate_nil {parts : List Str} {a : Char}
    (h : a ∈ List.intercalate [] parts) : ∃ p ∈ parts, a ∈ p := by
  unfold List.intercalate at h
  rw [List.mem_flatten] at h
  obtain ⟨l, hl, hal⟩ := h
  rcases mem_intersperse_nil hl with rfl | hp
  · simp at hal
  · exact ⟨l, hp, hal⟩

theorem mem_of_mem_replaceStr_nil {pat s : Str} {a : Char}
    (h : a ∈ replaceStr pat [] s) : a ∈ s := by
  unfold replaceStr at h
  obtain ⟨p, hp, hap⟩ := mem_of_mem_intercalate_nil h
  exact mem_of_mem_splitOnStr hp hap

/- ## normalize_url basics -/

theorem normalize_url_ne_nil {u n : Str} (h : normalize_url u = some n) :
    n ≠ [] := by
  unfold normalize_url at h
  by_cases h0 : pyStrip u = []
  · simp [h0] at h
  · simp only [h0, if_false] at h
    cases hv : video_id_of (hostOf u) (pathOf u) (queryOf u) with
    | none => rw [hv] at h; cases h
    | some vid =>
      rw [hv] at h
      by_cases hf : fullmatch11 vid = true
      · simp [hf] at h
        subst h
        simp [canonicalOf]
      · simp [Bool.not_eq_true] at hf
        simp [hf] at h

theorem normalize_url_dash_eq (url : Str) :
    normalize_url_dash url = normalize_url url := by
  unfold normalize_url_dash normalize_url video_id_of_dash video_id_of
  by_cases h0 : pyStrip url = []
  · simp [h0]
  · simp only [h0, if_false]
    by_cases h1 : hostOf url = "youtu.be".data
    · simp [h1]
    · simp only [h1, if_false]
      by_cases h2 : containsSub "youtube.com".data (hostOf url) = true
      · simp [h2]
      · simp only [Bool.not_eq_true] at h2
        simp [h2, fullmatch11]

/- ## normalize_url on the three accepted link shapes -/

theorem fullmatch11_of {id : Str} (hlen : id.length = 11)
    (hid : ∀ c ∈ id, isVidChar c = true) : fullmatch11 id = true := by
  simp only [fullmatch11, hlen, List.all_eq_true, Bool.and_eq_true, beq_iff_eq]
  exact ⟨trivial, hid⟩

theorem dropWhile_slash_id {id rest : Str} (hlen : id.length = 11)
    (hid : ∀ c ∈ id, isVidChar c = true) :
    (id ++ rest).dropWhile (· == '/') = id ++ rest := by
  cases id with
  | nil => simp at hlen
  | cons c0 id' =>
    rw [List.cons_append, List.dropWhile_cons]
    have h0 : (c0 != '/') = true := vidChar_bne (hid c0 (by simp)) (by decide)
    rw [bne_iff_ne] at h0
    simp [h0]

theorem normalize_youtu_plain (id : Str) (hlen : id.length = 11)
    (hid : ∀ c ∈ id, isVidChar c = true) :
    normalize_url ("https://youtu.be/".data ++ id) = some (canonicalOf id) := by
  have hq : ∀ c ∈ id, (c != '?') = true :=
    fun c hc => vidChar_bne (hid c hc) (by decide)
  have hh : ∀ c ∈ id, (c != '#') = true :=
    fun c hc => vidChar_bne (hid c hc) (by decide)
  have hpre : ∀ c ∈ "https://youtu.be/".data, c.isWhitespace = false := by decide
  have hnws : ∀ c ∈ "https://youtu.be/".data ++ id, c.isWhitespace = false := by
    intro c hc
    rcases List.mem_append.mp hc with h | h
    · exact hpre c h
    · exact vidChar_not_ws (hid c h)
  have hstrip : pyStrip ("https://youtu.be/".data ++ id) =
      "https://youtu.be/".data ++ id := pyStrip_no_ws hnws
  have h1 : splitScheme ("https://youtu.be/".data ++ id) =
      ("https".data, "//youtu.be/".data ++ id) := rfl
  have h2 : splitNetloc ("//youtu.be/".data ++ id) =
      ("youtu.be".data, '/' :: id) := rfl
  have h3 : splitFirstAt '#' ('/' :: id) = ('/' :: id, []) := by
    unfold splitFirstAt
    rw [List.takeWhile_cons, List.dropWhile_cons]
    simp only [show (('/' : Char) != '#') = true from rfl, if_true]
    rw [takeWhile_all _ id hh, dropWhile_all _ id hh]
    rfl
  have h4 : splitFirstAt '?' ('/' :: id) = ('/' :: id, []) := by
    unfold splitFirstAt
    rw [List.takeWhile_cons, List.dropWhile_cons]
    simp only [show (('/' : Char) != '?') = true from rfl, if_true]
    rw [takeWhile_all _ id hq, dropWhile_all _ id hq]
    rfl
  have hup : urlparse ("https://youtu.be/".data ++ id) =
      ⟨"https".data, "youtu.be".data, '/' :: id, []⟩ := by
    simp only [urlparse, h1, h2, h3, h4]
  have hhost : hostOf ("https://youtu.be/".data ++ id) = "youtu.be".data := by
    unfold hostOf
    rw [hstrip, hup]
    rfl
  have hpath : pathOf ("https://youtu.be/".data ++ id) = id := by
    unfold pathOf
    rw [hstrip, hup]
    show ('/' :: id).dropWhile (· == '/') = id
    rw [List.dropWhile_cons]
    simp only [show (('/' : Char) == '/') = true from rfl, if_true]
    have := @dropWhile_slash_id id [] hlen hid
    simpa using this
  have hquery : queryOf ("https://youtu.be/".data ++ id) = [] := by
    unfold queryOf
    rw [hstrip, hup]
  have hne : ("https://youtu.be/".data ++ id) ≠ [] := by
    intro h
    have := congrArg List.length h
    simp at this
  have hv : video_id_of "youtu.be".data id [] = some id := by
    unfold video_id_of
    rw [if_pos rfl, takeWhile_all _ id hq]
  unfold normalize_url
  rw [hstrip, if_neg hne, hhost, hpath, hquery, hv]
  simp only [fullmatch11_of hlen hid, if_true]

theorem beq_false_of_bne {α} [BEq α] {a b : α} (h : (a != b) = true) :
    (a == b) = false := by
  rwa [bne, Bool.not_eq_true'] at h

theorem unquotePlus_id {s : Str} (h : ∀ c ∈ s, isVidChar c = true) :
    unquotePlus s = s := by
  unfold unquotePlus
  have : ∀ c ∈ s, (fun c => if c = '+' then ' ' else c) c = c := by
    intro c hc
    have hb := vidChar_bne (h c hc) (show isVidChar '+' = false by decide)
    rw [bne_iff_ne] at hb
    simp [hb]
  rw [List.map_congr_left this]
  exact List.map_id s

theorem normalize_youtu_query (id extra : Str) (hlen : id.length = 11)
    (hid : ∀ c ∈ id, isVidChar c = true)
    (hx : ∀ c ∈ extra, (c != '#') = true ∧ c.isWhitespace = false) :
    normalize_url ("https://youtu.be/".data ++ (id ++ '?' :: extra)) =
      some (canonicalOf id) := by
  have hq : ∀ c ∈ id, (c != '?') = true :=
    fun c hc => vidChar_bne (hid c hc) (by decide)
  have hh : ∀ c ∈ id, (c != '#') = true :=
    fun c hc => vidChar_bne (hid c hc) (by decide)
  have hpre : ∀ c ∈ "https://youtu.be/".data, c.isWhitespace = false := by decide
  have hnws : ∀ c ∈ "https://youtu.be/".data ++ (id ++ '?' :: extra),
      c.isWhitespace = false := by
    intro c hc
    rcases List.mem_append.mp hc with h | h
    · exact hpre c h
    · rcases List.mem_append.mp h with h' | h'
      · exact vidChar_not_ws (hid c h')
      · rcases List.mem_cons.mp h' with rfl | h''
        · decide
        · exact (hx c h'').2
  have hstrip : pyStrip ("https://youtu.be/".data ++ (id ++ '?' :: extra)) =
      "https://youtu.be/".data ++ (id ++ '?' :: extra) := pyStrip_no_ws hnws
  have h1 : splitScheme ("https://youtu.be/".data ++ (id ++ '?' :: extra)) =
      ("https".data, "//youtu.be/".data ++ (id ++ '?' :: extra)) := rfl
  have h2 : splitNetloc ("//youtu.be/".data ++ (id ++ '?' :: extra)) =
      ("youtu.be".data, '/' :: (id ++ '?' :: extra)) := rfl
  have hallh : ∀ c ∈ '/' :: (id ++ '?' :: extra), (c != '#') = true := by
    intro c hc
    rcases List.mem_cons.mp hc with rfl | h
    · decide
    · rcases List.mem_append.mp h with h' | h'
      · exact hh c h'
      · rcases List.mem_cons.mp h' with rfl | h''
        · decide
        · exact (hx c h'').1
  have h3 : splitFirstAt '#' ('/' :: (id ++ '?' :: extra)) =
      ('/' :: (id ++ '?' :: extra), []) := by
    unfold splitFirstAt
    rw [takeWhile_all _ _ hallh, dropWhile_all _ _ hallh]
    rfl
  have h4 : splitFirstAt '?' ('/' :: (id ++ '?' :: extra)) =
      ('/' :: id, extra) := by
    unfold splitFirstAt
    rw [List.takeWhile_cons, List.dropWhile_cons]
    simp only [show (('/' : Char) != '?') = true from rfl, if_true]
    rw [takeWhile_append_all _ id _ hq, dropWhile_append_all _ id _ hq]
    rw [List.takeWhile_cons, List.dropWhile_cons]
    simp

  have hup : urlparse ("https://youtu.be/".data ++ (id ++ '?' :: extra)) =
      ⟨"https".data, "youtu.be".data, '/' :: id, extra⟩ := by
    simp only [urlparse, h1, h2, h3, h4]
  have hhost : hostOf ("https://youtu.be/".data ++ (id ++ '?' :: extra)) =
      "youtu.be".data := by
    unfold hostOf
    rw [hstrip, hup]
    rfl
  have hpath : pathOf ("https://youtu.be/".data ++ (id ++ '?' :: extra)) = id := by
    unfold pathOf
    rw [hstrip, hup]
    show ('/' :: id).dropWhile (· == '/') = id
    rw [List.dropWhile_cons]
    simp only [show (('/' : Char) == '/') = true from rfl, if_true]
    have := @dropWhile_slash_id id [] hlen hid
    simpa using this
  have hquery : queryOf ("https://youtu.be/".data ++ (id ++ '?' :: extra)) =
      extra := by
    unfold queryOf
    rw [hstrip, hup]
  have hne : ("https://youtu.be/".data ++ (id ++ '?' :: extra)) ≠ [] := by
    intro h
    have := congrArg List.length h
    simp at this
  have hv : video_id_of "youtu.be".data id extra = some id := by
    unfold video_id_of
    rw [if_pos rfl, takeWhile_all _ id hq]
  unfold normalize_url
  rw [hstrip, if_neg hne, hhost, hpath, hquery, hv]
  simp only [fullmatch11_of hlen hid, if_true]

theorem video_id_of_shorts {id : Str} (q : Str)
    (hid : ∀ c ∈ id, isVidChar c = true) :
    video_id_of "www.youtube.com".data ("shorts/".data ++ id) q = some id := by
  have hslash : ∀ a ∈ id, (a == '/') = false :=
    fun c hc => beq_false_of_bne (vidChar_bne (hid c hc) (by decide))
  have hsplit : splitOnChar '/' ("shorts/".data ++ id) = ["shorts".data, id] := by
    have e : "shorts/".data ++ id = "shorts".data ++ '/' :: id := rfl
    rw [e, splitOnChar_append_sep _ _ _ (by decide), splitOnChar_no_sep _ _ hslash]
  have hw : "watch".data.isPrefixOf ("shorts/".data ++ id) = false := rfl
  have hs : "shorts/".data.isPrefixOf ("shorts/".data ++ id) = true :=
    isPrefixOf_append_self _ _
  have c1 : ¬ ("www.youtube.com".data : Str) = "youtu.be".data := by decide
  have c2 : containsSub "youtube.com".data "www.youtube.com".data = true := by
    decide
  have c3 : ¬ "watch".data.isPrefixOf ("shorts/".data ++ id) = true := by
    rw [hw]; simp
  unfold video_id_of
  rw [if_neg c1, if_pos c2, if_neg c3, if_pos hs, hsplit]
  rfl

theorem normalize_shorts_plain (id : Str) (hlen : id.length = 11)
    (hid : ∀ c ∈ id, isVidChar c = true) :
    normalize_url ("https://www.youtube.com/shorts/".data ++ id) =
      some (canonicalOf id) := by
  have hq : ∀ c ∈ id, (c != '?') = true :=
    fun c hc => vidChar_bne (hid c hc) (by decide)
  have hh : ∀ c ∈ id, (c != '#') = true :=
    fun c hc => vidChar_bne (hid c hc) (by decide)
  have hpre : ∀ c ∈ "https://www.youtube.com/shorts/".data,
      c.isWhitespace = false := by decide
  have hnws : ∀ c ∈ "https://www.youtube.com/shorts/".data ++ id,
      c.isWhitespace = false := by
    intro c hc
    rcases List.mem_append.mp hc with h | h
    · exact hpre c h
    · exact vidChar_not_ws (hid c h)
  have hstrip : pyStrip ("https://www.youtube.com/shorts/".data ++ id) =
      "https://www.youtube.com/shorts/".data ++ id := pyStrip_no_ws hnws
  have h1 : splitScheme ("https://www.youtube.com/shorts/".data ++ id) =
      ("https".data, "//www.youtube.com/shorts/".data ++ id) := rfl
  have h2 : splitNetloc ("//www.youtube.com/shorts/".data ++ id) =
      ("www.youtube.com".data, "/shorts/".data ++ id) := rfl
  have hch : ∀ c ∈ "/shorts/".data, (c != '#') = true := by decide
  have hcq : ∀ c ∈ "/shorts/".data, (c != '?') = true := by decide
  have hallh : ∀ c ∈ "/shorts/".data ++ id, (c != '#') = true := by
    intro c hc
    rcases List.mem_append.mp hc with h | h
    · exact hch c h
    · exact hh c h
  have hallq : ∀ c ∈ "/shorts/".data ++ id, (c != '?') = true := by
    intro c hc
    rcases List.mem_append.mp hc with h | h
    · exact hcq c h
    · exact hq c h
  have h3 : splitFirstAt '#' ("/shorts/".data ++ id) =
      ("/shorts/".data ++ id, []) := by
    unfold splitFirstAt
    rw [takeWhile_all _ _ hallh, dropWhile_all _ _ hallh]
    rfl
  have h4 : splitFirstAt '?' ("/shorts/".data ++ id) =
      ("/shorts/".data ++ id, []) := by
    unfold splitFirstAt
    rw [takeWhile_all _ _ hallq, dropWhile_all _ _ hallq]
    rfl
  have hup : urlparse ("https://www.youtube.com/shorts/".data ++ id) =
      ⟨"https".data, "www.youtube.com".data, "/shorts/".data ++ id, []⟩ := by
    simp only [urlparse, h1, h2, h3, h4]
  have hhost : hostOf ("https://www.youtube.com/shorts/".data ++ id) =
      "www.youtube.com".data := by
    unfold hostOf
    rw [hstrip, hup]
    rfl
  have hpath : pathOf ("https://www.youtube.com/shorts/".data ++ id) =
      "shorts/".data ++ id := by
    unfold pathOf
    rw [hstrip, hup]
    rfl
  have hquery : queryOf ("https://www.youtube.com/shorts/".data ++ id) = [] := by
    unfold queryOf
    rw [hstrip, hup]
  have hne : ("https://www.youtube.com/shorts/".data ++ id) ≠ [] := by
    intro h
    have := congrArg List.length h
    simp at this
  unfold normalize_url
  rw [hstrip, if_neg hne, hhost, hpath, hquery, video_id_of_shorts _ hid]
  simp only [fullmatch11_of hlen hid, if_true]

theorem normalize_shorts_query (id extra : Str) (hlen : id.length = 11)
    (hid : ∀ c ∈ id, isVidChar c = true)
    (hx : ∀ c ∈ extra, (c != '#') = true ∧ c.isWhitespace = false) :
    normalize_url ("https://www.youtube.com/shorts/".data ++ (id ++ '?' :: extra)) =
      some (canonicalOf id) := by
  have hq : ∀ c ∈ id, (c != '?') = true :=
    fun c hc => vidChar_bne (hid c hc) (by decide)
  have hh : ∀ c ∈ id, (c != '#') = true :=
    fun c hc => vidChar_bne (hid c hc) (by decide)
  have hpre : ∀ c ∈ "https://www.youtube.com/shorts/".data,
      c.isWhitespace = false := by decide
  have hnws : ∀ c ∈ "https://www.youtube.com/shorts/".data ++ (id ++ '?' :: extra),
      c.isWhitespace = false := by
    intro c hc
    rcases List.mem_append.mp hc with h | h
    · exact hpre c h
    · rcases List.mem_append.mp h with h' | h'
      · exact vidChar_not_ws (hid c h')
      · rcases List.mem_cons.mp h' with rfl | h''
        · decide
        · exact (hx c h'').2
  have hstrip : pyStrip ("https://www.youtube.com/shorts/".data ++ (id ++ '?' :: extra)) =
      "https://www.youtube.com/shorts/".data ++ (id ++ '?' :: extra) :=
    pyStrip_no_ws hnws
  have h1 : splitScheme ("https://www.youtube.com/shorts/".data ++ (id ++ '?' :: extra)) =
      ("https".data, "//www.youtube.com/shorts/".data ++ (id ++ '?' :: extra)) := rfl
  have h2 : splitNetloc ("//www.youtube.com/shorts/".data ++ (id ++ '?' :: extra)) =
      ("www.youtube.com".data, "/shorts/".data ++ (id ++ '?' :: extra)) := rfl
  have hch : ∀ c ∈ "/shorts/".data, (c != '#') = true := by decide
  have hallh : ∀ c ∈ "/shorts/".data ++ (id ++ '?' :: extra), (c != '#') = true := by
    intro c hc
    rcases List.mem_append.mp hc with h | h
    · exact hch c h
    · rcases List.mem_append.mp h with h' | h'
      · exact hh c h'
      · rcases List.mem_cons.mp h' with rfl | h''
        · decide
        · exact (hx c h'').1
  have h3 : splitFirstAt '#' ("/shorts/".data ++ (id ++ '?' :: extra)) =
      ("/shorts/".data ++ (id ++ '?' :: extra), []) := by
    unfold splitFirstAt
    rw [takeWhile_all _ _ hallh, dropWhile_all _ _ hallh]
    rfl
  have hallq8 : ∀ c ∈ "/shorts/".data, (c != '?') = true := by decide
  have h4 : splitFirstAt '?' ("/shorts/".data ++ (id ++ '?' :: extra)) =
      ("/shorts/".data ++ id, extra) := by
    unfold splitFirstAt
    rw [takeWhile_append_all _ _ _ hallq8, dropWhile_append_all _ _ _ hallq8]
    rw [takeWhile_append_all _ id _ hq, dropWhile_append_all _ id _ hq]
    rw [List.takeWhile_cons, List.dropWhile_cons]
    simp
  have hup : urlparse ("https://www.youtube.com/shorts/".data ++ (id ++ '?' :: extra)) =
      ⟨"https".data, "www.youtube.com".data, "/shorts/".data ++ id, extra⟩ := by
    simp only [urlparse, h1, h2, h3, h4]
  have hhost : hostOf ("https://www.youtube.com/shorts/".data ++ (id ++ '?' :: extra)) =
      "www.youtube.com".data := by
    unfold hostOf
    rw [hstrip, hup]
    rfl
  have hpath : pathOf ("https://www.youtube.com/shorts/".data ++ (id ++ '?' :: extra)) =
      "shorts/".data ++ id := by
    unfold pathOf
    rw [hstrip, hup]
    rfl
  have hquery : queryOf ("https://www.youtube.com/shorts/".data ++ (id ++ '?' :: extra)) =
      extra := by
    unfold queryOf
    rw [hstrip, hup]
  have hne : ("https://www.youtube.com/shorts/".data ++ (id ++ '?' :: extra)) ≠ [] := by
    intro h
    have := congrArg List.length h
    simp at this
  unfold normalize_url
  rw [hstrip, if_neg hne, hhost, hpath, hquery, video_id_of_shorts _ hid]
  simp only [fullmatch11_of hlen hid, if_true]

theorem parseQsl_v_head (id : Str) (hlen : id.length = 11)
    (hid : ∀ c ∈ id, isVidChar c = true) (rest : List Str) :
    List.filterMap (fun nv =>
      if nv = [] then none
      else
        match (nv.dropWhile (· != '=')) with
        | [] => none
        | _ :: value =>
          if value = [] then none
          else some (unquotePlus (nv.takeWhile (· != '=')), unquotePlus value))
      (("v=".data ++ id) :: rest) =
    ("v".data, id) :: List.filterMap (fun nv =>
      if nv = [] then none
      else
        match (nv.dropWhile (· != '=')) with
        | [] => none
        | _ :: value =>
          if value = [] then none
          else some (unquotePlus (nv.takeWhile (· != '=')), unquotePlus value))
      rest := by
  have hid_ne : id ≠ [] := by
    intro h
    rw [h] at hlen
    simp at hlen
  rw [List.filterMap_cons]
  have e : ("v=".data ++ id : Str) = 'v' :: '=' :: id := rfl
  have hdw : (('v' :: '=' :: id : Str).dropWhile (· != '=')) = '=' :: id := rfl
  have htw : (('v' :: '=' :: id : Str).takeWhile (· != '=')) = ['v'] := rfl
  simp only [e, hdw, htw]
  simp only [if_neg (List.cons_ne_nil 'v' ('=' :: id)), if_neg hid_ne]
  rw [unquotePlus_id hid]
  rfl

theorem getV_head (id : Str) (rest : List (Str × Str)) :
    getV (("v".data, id) :: rest) = id := by
  unfold getV
  rw [List.find?_cons_of_pos _ (by simp)]

theorem video_id_of_watch (q : Str) :
    video_id_of "www.youtube.com".data "watch".data q = some (getV (parseQsl q)) := by
  have c1 : ¬ ("www.youtube.com".data : Str) = "youtu.be".data := by decide
  have c2 : containsSub "youtube.com".data "www.youtube.com".data = true := by
    decide
  unfold video_id_of
  rw [if_neg c1, if_pos c2, if_pos (show "watch".data.isPrefixOf "watch".data = true
    from rfl)]

theorem normalize_watch_plain (id : Str) (hlen : id.length = 11)
    (hid : ∀ c ∈ id, isVidChar c = true) :
    normalize_url ("https://www.youtube.com/watch?v=".data ++ id) =
      some (canonicalOf id) := by
  have hh : ∀ c ∈ id, (c != '#') = true :=
    fun c hc => vidChar_bne (hid c hc) (by decide)
  have hamp : ∀ a ∈ "v=".data ++ id, (a == '&') = false := by
    intro a ha
    rcases List.mem_append.mp ha with h | h
    · revert h
      have : ∀ a ∈ "v=".data, (a == '&') = false := by decide
      exact this a
    · exact beq_false_of_bne (vidChar_bne (hid a h) (by decide))
  have hpre : ∀ c ∈ "https://www.youtube.com/watch?v=".data,
      c.isWhitespace = false := by decide
  have hnws : ∀ c ∈ "https://www.youtube.com/watch?v=".data ++ id,
      c.isWhitespace = false := by
    intro c hc
    rcases List.mem_append.mp hc with h | h
    · exact hpre c h
    · exact vidChar_not_ws (hid c h)
  have hstrip : pyStrip ("https://www.youtube.com/watch?v=".data ++ id) =
      "https://www.youtube.com/watch?v=".data ++ id := pyStrip_no_ws hnws
  have h1 : splitScheme ("https://www.youtube.com/watch?v=".data ++ id) =
      ("https".data, "//www.youtube.com/watch?v=".data ++ id) := rfl
  have h2 : splitNetloc ("//www.youtube.com/watch?v=".data ++ id) =
      ("www.youtube.com".data, "/watch?v=".data ++ id) := rfl
  have hch : ∀ c ∈ "/watch?v=".data, (c != '#') = true := by decide
  have hallh : ∀ c ∈ "/watch?v=".data ++ id, (c != '#') = true := by
    intro c hc
    rcases List.mem_append.mp hc with h | h
    · exact hch c h
    · exact hh c h
  have h3 : splitFirstAt '#' ("/watch?v=".data ++ id) =
      ("/watch?v=".data ++ id, []) := by
    unfold splitFirstAt
    rw [takeWhile_all _ _ hallh, dropWhile_all _ _ hallh]
    rfl
  have h4 : splitFirstAt '?' ("/watch?v=".data ++ id) =
      ("/watch".data, "v=".data ++ id) := rfl
  have hup : urlparse ("https://www.youtube.com/watch?v=".data ++ id) =
      ⟨"https".data, "www.youtube.com".data, "/watch".data, "v=".data ++ id⟩ := by
    simp only [urlparse, h1, h2, h3, h4]
  have hhost : hostOf ("https://www.youtube.com/watch?v=".data ++ id) =
      "www.youtube.com".data := by
    unfold hostOf
    rw [hstrip, hup]
    rfl
  have hpath : pathOf ("https://www.youtube.com/watch?v=".data ++ id) =
      "watch".data := by
    unfold pathOf
    rw [hstrip, hup]
    rfl
  have hquery : queryOf ("https://www.youtube.com/watch?v=".data ++ id) =
      "v=".data ++ id := by
    unfold queryOf
    rw [hstrip, hup]
  have hne : ("https://www.youtube.com/watch?v=".data ++ id) ≠ [] := by
    intro h
    have := congrArg List.length h
    simp at this
  have hqsl : parseQsl ("v=".data ++ id) = [("v".data, id)] := by
    unfold parseQsl
    rw [splitOnChar_no_sep _ _ hamp, parseQsl_v_head id hlen hid []]
    rfl
  unfold normalize_url
  rw [hstrip, if_neg hne, hhost, hpath, hquery, video_id_of_watch, hqsl,
    getV_head]
  simp only [fullmatch11_of hlen hid, if_true]

theorem normalize_watch_extra (id extra : Str) (hlen : id.length = 11)
    (hid : ∀ c ∈ id, isVidChar c = true)
    (hx : ∀ c ∈ extra, (c != '#') = true ∧ c.isWhitespace = false) :
    normalize_url ("https://www.youtube.com/watch?v=".data ++ (id ++ '&' :: extra)) =
      some (canonicalOf id) := by
  have hh : ∀ c ∈ id, (c != '#') = true :=
    fun c hc => vidChar_bne (hid c hc) (by decide)
  have hamp : ∀ a ∈ "v=".data ++ id, (a == '&') = false := by
    intro a ha
    rcases List.mem_append.mp ha with h | h
    · revert h
      have : ∀ a ∈ "v=".data, (a == '&') = false := by decide
      exact this a
    · exact beq_false_of_bne (vidChar_bne (hid a h) (by decide))
  have hpre : ∀ c ∈ "https://www.youtube.com/watch?v=".data,
      c.isWhitespace = false := by decide
  have hnws : ∀ c ∈ "https://www.youtube.com/watch?v=".data ++ (id ++ '&' :: extra),
      c.isWhitespace = false := by
    intro c hc
    rcases List.mem_append.mp hc with h | h
    · exact hpre c h
    · rcases List.mem_append.mp h with h' | h'
      · exact vidChar_not_ws (hid c h')
      · rcases List.mem_cons.mp h' with rfl | h''
        · decide
        · exact (hx c h'').2
  have hstrip : pyStrip ("https://www.youtube.com/watch?v=".data ++ (id ++ '&' :: extra)) =
      "https://www.youtube.com/watch?v=".data ++ (id ++ '&' :: extra) :=
    pyStrip_no_ws hnws
  have h1 : splitScheme ("https://www.youtube.com/watch?v=".data ++ (id ++ '&' :: extra)) =
      ("https".data, "//www.youtube.com/watch?v=".data ++ (id ++ '&' :: extra)) := rfl
  have h2 : splitNetloc ("//www.youtube.com/watch?v=".data ++ (id ++ '&' :: extra)) =
      ("www.youtube.com".data, "/watch?v=".data ++ (id ++ '&' :: extra)) := rfl
  have hch : ∀ c ∈ "/watch?v=".data, (c != '#') = true := by decide
  have hallh : ∀ c ∈ "/watch?v=".data ++ (id ++ '&' :: extra), (c != '#') = true := by
    intro c hc
    rcases List.mem_append.mp hc with h | h
    · exact hch c h
    · rcases List.mem_append.mp h with h' | h'
      · exact hh c h'
      · rcases List.mem_cons.mp h' with rfl | h''
        · decide
        · exact (hx c h'').1
  have h3 : splitFirstAt '#' ("/watch?v=".data ++ (id ++ '&' :: extra)) =
      ("/watch?v=".data ++ (id ++ '&' :: extra), []) := by
    unfold splitFirstAt
    rw [takeWhile_all _ _ hallh, dropWhile_all _ _ hallh]
    rfl
  have h4 : splitFirstAt '?' ("/watch?v=".data ++ (id ++ '&' :: extra)) =
      ("/watch".data, "v=".data ++ (id ++ '&' :: extra)) := rfl
  have hup : urlparse ("https://www.youtube.com/watch?v=".data ++ (id ++ '&' :: extra)) =
      ⟨"https".data, "www.youtube.com".data, "/watch".data,
        "v=".data ++ (id ++ '&' :: extra)⟩ := by
    simp only [urlparse, h1, h2, h3, h4]
  have hhost : hostOf ("https://www.youtube.com/watch?v=".data ++ (id ++ '&' :: extra)) =
      "www.youtube.com".data := by
    unfold hostOf
    rw [hstrip, hup]
    rfl
  have hpath : pathOf ("https://www.youtube.com/watch?v=".data ++ (id ++ '&' :: extra)) =
      "watch".data := by
    unfold pathOf
    rw [hstrip, hup]
    rfl
  have hquery : queryOf ("https://www.youtube.com/watch?v=".data ++ (id ++ '&' :: extra)) =
      "v=".data ++ (id ++ '&' :: extra) := by
    unfold queryOf
    rw [hstrip, hup]
  have hne : ("https://www.youtube.com/watch?v=".data ++ (id ++ '&' :: extra)) ≠ [] := by
    intro h
    have := congrArg List.length h
    simp at this
  have hqsl : getV (parseQsl ("v=".data ++ (id ++ '&' :: extra))) = id := by
    unfold parseQsl
    have e : ("v=".data ++ (id ++ '&' :: extra) : Str) =
        ("v=".data ++ id) ++ '&' :: extra := by
      rw [List.append_assoc]
    rw [e, splitOnChar_append_sep _ _ _ hamp, parseQsl_v_head id hlen hid _,
      getV_head]
  unfold normalize_url
  rw [hstrip, if_neg hne, hhost, hpath, hquery, video_id_of_watch, hqsl]
  simp only [fullmatch11_of hlen hid, if_true]

/- ## Claim theorems -/

/-- C2: for every 11-character id over `[A-Za-z0-9_-]`, the three link
shapes `youtu.be/<id>`, `youtube.com/shorts/<id>` and
`youtube.com/watch?v=<id>` — each with or without extra query parameters
such as a share token (any `#`-free, whitespace-free parameter string) —
all normalize to the same canonical string
`https://www.youtube.com/watch?v=<id>`, the extra parameters being
discarded; and the dashboard variant's `normalize_url` agrees with the
simple variant's on every input. -/
theorem claim_C2 (id extra : Str) (hlen : id.length = 11)
    (hid : ∀ c ∈ id, isVidChar c = true)
    (hx : ∀ c ∈ extra, (c != '#') = true ∧ c.isWhitespace = false) :
    normalize_url ("https://youtu.be/".data ++ id) = some (canonicalOf id) ∧
    normalize_url ("https://youtu.be/".data ++ (id ++ '?' :: extra)) =
      some (canonicalOf id) ∧
    normalize_url ("https://www.youtube.com/shorts/".data ++ id) =
      some (canonicalOf id) ∧
    normalize_url ("https://www.youtube.com/shorts/".data ++ (id ++ '?' :: extra)) =
      some (canonicalOf id) ∧
    normalize_url ("https://www.youtube.com/watch?v=".data ++ id) =
      some (canonicalOf id) ∧
    normalize_url ("https://www.youtube.com/watch?v=".data ++ (id ++ '&' :: extra)) =
      some (canonicalOf id) ∧
    (∀ u : Str, normalize_url_dash u = normalize_url u) :=
  ⟨normalize_youtu_plain id hlen hid,
   normalize_youtu_query id extra hlen hid hx,
   normalize_shorts_plain id hlen hid,
   normalize_shorts_query id extra hlen hid hx,
   normalize_watch_plain id hlen hid,
   normalize_watch_extra id extra hlen hid hx,
   normalize_url_dash_eq⟩

/-- Witness for C2 at the repository's demo id `cpcfdwnf4M8` with the
share-token parameter `si=XYZ`. -/
theorem claim_C2_witness :
    normalize_url "https://youtu.be/cpcfdwnf4M8?si=XYZ".data =
      some "https://www.youtube.com/watch?v=cpcfdwnf4M8".data ∧
    normalize_url "https://www.youtube.com/shorts/cpcfdwnf4M8".data =
      some "https://www.youtube.com/watch?v=cpcfdwnf4M8".data ∧
    normalize_url "https://www.youtube.com/watch?v=cpcfdwnf4M8&si=XYZ".data =
      some "https://www.youtube.com/watch?v=cpcfdwnf4M8".data := by
  have h := claim_C2 "cpcfdwnf4M8".data "si=XYZ".data (by decide) (by decide)
    (by decide)
  exact ⟨h.2.1, h.2.2.1, h.2.2.2.2.2.1⟩

/-- C7: `normalize_url` rejects (returns `None` for) every input that
strips to the empty string, every input whose host is neither `youtu.be`
nor a `youtube.com` host, every input whose extracted id fails the
`[A-Za-z0-9_-]{11}` full match (for example a 10- or 12-character id),
and every input with a `youtube.com` host whose path starts with neither
`watch` nor `shorts/`. -/
theorem claim_C7 :
    (∀ url : Str, pyStrip url = [] → normalize_url url = none) ∧
    (∀ url : Str, ¬ hostOf url = "youtu.be".data →
      containsSub "youtube.com".data (hostOf url) = false →
      normalize_url url = none) ∧
    (∀ url vid : Str,
      video_id_of (hostOf url) (pathOf url) (queryOf url) = some vid →
      fullmatch11 vid = false → normalize_url url = none) ∧
    (∀ url : Str, ¬ hostOf url = "youtu.be".data →
      "watch".data.isPrefixOf (pathOf url) = false →
      "shorts/".data.isPrefixOf (pathOf url) = false →
      normalize_url url = none) := by
  refine ⟨?_, ?_, ?_, ?_⟩
  · intro url h
    unfold normalize_url
    rw [if_pos h]
  · intro url h1 h2
    unfold normalize_url
    by_cases h0 : pyStrip url = []
    · rw [if_pos h0]
    · rw [if_neg h0]
      have hv : video_id_of (hostOf url) (pathOf url) (queryOf url) = none := by
        unfold video_id_of
        rw [if_neg h1, if_neg (by simp [h2])]
      rw [hv]
  · intro url vid hv hf
    unfold normalize_url
    by_cases h0 : pyStrip url = []
    · rw [if_pos h0]
    · rw [if_neg h0, hv]
      simp only [hf, Bool.false_eq_true, if_false]
  · intro url h1 h2 h3
    unfold normalize_url
    by_cases h0 : pyStrip url = []
    · rw [if_pos h0]
    · rw [if_neg h0]
      have hv : video_id_of (hostOf url) (pathOf url) (queryOf url) = none := by
        unfold video_id_of
        rw [if_neg h1]
        by_cases hc : containsSub "youtube.com".data (hostOf url) = true
        · rw [if_pos hc, if_neg (by simp [h2]), if_neg (by simp [h3])]
        · rw [if_neg hc]
      rw [hv]

/-- Witness for C7: the empty string, a Vimeo host, a 10-character and a
12-character watch id, and a `youtube.com` playlist path are all
rejected. -/
theorem claim_C7_witness :
    normalize_url "".data = none ∧
    normalize_url "https://vimeo.com/cpcfdwnf4M8".data = none ∧
    normalize_url "https://www.youtube.com/watch?v=cpcfdwnf4M".data = none ∧
    normalize_url "https://www.youtube.com/watch?v=cpcfdwnf4M89".data = none ∧
    normalize_url "https://www.youtube.com/playlist?list=abc".data = none := by
  refine ⟨claim_C7.1 _ (by decide),
          claim_C7.2.1 _ (by decide) (by decide),
          claim_C7.2.2.1 _ "cpcfdwnf4M".data (by decide) (by decide),
          claim_C7.2.2.1 _ "cpcfdwnf4M89".data (by decide) (by decide),
          claim_C7.2.2.2 _ (by decide) (by decide) (by decide)⟩

/-- C1 (evaluation at the failing input): both parsers were required to
discard a block whose `[COMMENT]` marker is followed by fewer than five
header lines, but on the one-line block `[COMMENT]` each raises
IndexError instead (the simple variant at `lines[1]`, the dashboard
variant at `arr[idx + 2]`). -/
theorem claim_C1_eval :
    parse_comment_block_simple "[COMMENT]".data = .error .indexError ∧
    parse_comment_block_dash "[COMMENT]".data = .error .indexError := by
  exact ⟨by decide, by decide⟩

/-- C3 counterexample: on the metadata line `3 days ago|later text` the
dashboard variant's `_parse_head` sets `posted` to the LAST unrecognised
segment `later text`, not to the first segment `3 days ago` as the claim
states, so unrecognised later segments are not ignored there. -/
theorem claim_C3_cex :
    (parse_head ["[COMMENT]".data, "u".data, "p".data, "c".data,
        "3 days ago|later text".data] 0).map (fun x => x.1.posted) =
      .ok "later text".data ∧
    "later text".data ≠ "3 days ago".data := by
  exact ⟨by decide, by decide⟩

/-- C3 (amended): `edited` is set iff the line contains `(edited)` (which
is stripped); in the simple variant the first stripped `|`-segment
becomes `posted` and later segments not recognised as `like:<int>` or
`reply:<int>` are ignored, exactly as the claim states; in the dashboard
variant, however, every unrecognised segment (the first as well as later
ones) overwrites `posted`, so the LAST unrecognised segment wins.  Both
variants parse `"3 days ago|like:12|reply:4"` to
`posted="3 days ago", likes=12, replies=4, edited=false` and
`"1 day ago (edited)|like:0"` to `edited=true, likes=0,
posted="1 day ago"`. -/
theorem claim_C3 :
    (∀ (meta : Str) (ed : Bool) (po : Str) (li re : Int),
      parseMetaSimple meta = .ok (ed, po, li, re) →
      ed = containsSub "(edited)".data meta ∧
      po = pyStrip ((splitOnChar '|' (stripEdited meta).2).headD [])) ∧
    (∀ (ps : List Str) (po : Str) (li re : Int) (po' : Str) (li' re' : Int),
      metaFoldDash ps po li re = .ok (po', li', re') →
      po' = (ps.filter (fun p =>
        !("like:".data.isPrefixOf p) && !("reply:".data.isPrefixOf p))).getLastD po) ∧
    parseMetaSimple "3 days ago|like:12|reply:4".data =
      .ok (false, "3 days ago".data, 12, 4) ∧
    parseMetaSimple "1 day ago (edited)|like:0".data =
      .ok (true, "1 day ago".data, 0, 0) ∧
    (parse_head ["x".data, "u".data, "p".data, "c".data,
        "3 days ago|like:12|reply:4".data] 0).map
      (fun x => (x.1.posted, x.1.likes, x.1.replies, x.1.edited)) =
      .ok ("3 days ago".data, 12, 4, false) ∧
    (parse_head ["x".data, "u".data, "p".data, "c".data,
        "1 day ago (edited)|like:0".data] 0).map
      (fun x => (x.1.posted, x.1.likes, x.1.replies, x.1.edited)) =
      .ok ("1 day ago".data, 0, 0, true) := by
  refine ⟨?_, ?_, by decide, by decide, by decide, by decide⟩
  · intro meta ed po li re h
    unfold parseMetaSimple at h
    rcases hse : stripEdited meta with ⟨ed0, meta2⟩
    rw [hse] at h
    dsimp only at h
    cases hfold : metaFoldSimple (((splitOnChar '|' meta2).map pyStrip).tail) 0 0 with
    | error e => rw [hfold] at h; cases h
    | ok lr =>
      rcases lr with ⟨l, r⟩
      rw [hfold] at h
      injection h with h'
      have he : ed0 = ed := congrArg (fun x => x.1) h'
      have hp : (List.map pyStrip (splitOnChar '|' meta2)).headD [] = po :=
        congrArg (fun x => x.2.1) h'
      constructor
      · rw [← he]
        unfold stripEdited at hse
        by_cases hc : containsSub "(edited)".data meta = true
        · rw [if_pos hc] at hse
          rw [hc]
          exact (congrArg (fun x => x.1) hse).symm
        · rw [if_neg hc] at hse
          rw [Bool.not_eq_true] at hc
          rw [hc]
          exact (congrArg (fun x => x.1) hse).symm
      · rw [← hp]
        dsimp only
        cases hsp : splitOnChar '|' meta2 with
        | nil => exact absurd hsp (splitOnChar_ne_nil '|' meta2)
        | cons x t => simp
  · intro ps
    induction ps with
    | nil =>
      intro po li re po' li' re' h
      unfold metaFoldDash at h
      injection h with h'
      simp [(Prod.mk.injEq .. ▸ h').1]
    | cons p rest ih =>
      intro po li re po' li' re' h
      unfold metaFoldDash at h
      by_cases hl : "like:".data.isPrefixOf p = true
      · rw [if_pos hl] at h
        cases hpi : pyInt (afterColon p) with
        | error e => rw [hpi] at h; cases h
        | ok v =>
          rw [hpi] at h
          have := ih po v re po' li' re' h
          rw [this, List.filter_cons]
          simp [hl]
      · rw [if_neg hl] at h
        by_cases hr : "reply:".data.isPrefixOf p = true
        · rw [if_pos hr] at h
          cases hpi : pyInt (afterColon p) with
          | error e => rw [hpi] at h; cases h
          | ok v =>
            rw [hpi] at h
            have := ih po li v po' li' re' h
            rw [this, List.filter_cons]
            simp [hl, hr]
        · rw [if_neg hr] at h
          have := ih p li re po' li' re' h
          rw [this, List.filter_cons]
          simp only [Bool.not_eq_true] at hl hr
          simp only [hl, hr, Bool.not_false, Bool.and_self, if_true]
          exact (List.getLastD_cons po p _).symm

/-- Witness for C3 at the metadata line `1 day ago (edited)|like:0`. -/
theorem claim_C3_witness :
    (true : Bool) = containsSub "(edited)".data "1 day ago (edited)|like:0".data ∧
    "1 day ago".data = pyStrip ((splitOnChar '|'
      (stripEdited "1 day ago (edited)|like:0".data).2).headD []) := by
  exact claim_C3.1 "1 day ago (edited)|like:0".data true "1 day ago".data 0 0
    (by decide)

/- ## Inversion lemmas for the dashboard parser -/

theorem parse_head_spec {arr : List Str} {idx : Nat} {r : CRec} {j : Nat}
    (h : parse_head arr idx = .ok (r, j)) :
    j = idx + 5 ∧ r.parent_id = none ∧ r.comment = [] := by
  unfold parse_head at h
  simp only [usernameToggle, Bool.false_eq_true, if_false] at h
  cases h2 : getItem arr (idx + 2) with
  | error e => rw [h2] at h; cases h
  | ok profile =>
    rw [h2] at h
    cases h3 : getItem arr (idx + 3) with
    | error e => rw [h3] at h; cases h
    | ok curl =>
      rw [h3] at h
      cases h4 : getItem arr (idx + 4) with
      | error e => rw [h4] at h; cases h
      | ok meta =>
        rw [h4] at h
        dsimp only at h
        cases hfold : metaFoldDash
            ((splitOnChar '|' (stripEdited meta).2).map pyStrip) [] 0 0 with
        | error e => rw [hfold] at h; cases h
        | ok plr =>
          rcases plr with ⟨po, plr2⟩
          rcases plr2 with ⟨li, re⟩
          rw [hfold] at h
          injection h with h'
          refine ⟨(congrArg (fun x => x.2) h').symm, ?_, ?_⟩
          · exact (congrArg (fun x => x.1.parent_id) h').symm ▸ rfl
          · exact (congrArg (fun x => x.1.comment) h').symm ▸ rfl

theorem repliesLoopGo_pid {pid : Str} :
    ∀ (fuel : Nat) (ls : List Str) (res : List CRec),
    repliesLoopGo pid fuel ls = .ok res → ∀ r ∈ res, r.parent_id = some pid := by
  intro fuel
  induction fuel with
  | zero =>
    intro ls res h r hr
    unfold repliesLoopGo at h
    injection h with h'
    rw [← h'] at hr
    simp at hr
  | succ fuel ih =>
    intro ls res h r hr
    unfold repliesLoopGo at h
    cases ls with
    | nil =>
      dsimp only at h
      injection h with h'
      rw [← h'] at hr
      simp at hr
    | cons l rest =>
      dsimp only at h
      by_cases hrep : l ≠ "[REPLY]".data
      · rw [if_pos hrep] at h
        exact ih rest res h r hr
      · rw [if_neg hrep] at h
        cases hph : parse_head (l :: rest) 0 with
        | error e => rw [hph] at h; cases h
        | ok rj =>
          rcases rj with ⟨rep, j⟩
          rw [hph] at h
          cases hmore : repliesLoopGo pid fuel
              ((rest.drop 4).dropWhile (· != "[REPLY]".data)) with
          | error e => rw [hmore] at h; cases h
          | ok more =>
            rw [hmore] at h
            injection h with h'
            rw [← h'] at hr
            rcases List.mem_cons.mp hr with rfl | hm
            · rfl
            · exact ih _ more hmore r hm

theorem repliesLoop_pid {pid : Str} {ls : List Str} {res : List CRec}
    (h : repliesLoop pid ls = .ok res) : ∀ r ∈ res, r.parent_id = some pid :=
  repliesLoopGo_pid ls.length ls res h

theorem parse_block_dash_spec {block : Str} {p : CRec} {rs : List CRec}
    (h : parse_comment_block_dash block = .ok (some (p, rs))) :
    p.parent_id = none ∧
    p.comment = List.intercalate ['\n']
      (((dashLines block).drop 5).takeWhile (· != "Replies:".data)) ∧
    (∀ r ∈ rs, r.parent_id = some p.comment_url) := by
  unfold parse_comment_block_dash at h
  cases hls : dashLines block with
  | nil => rw [hls] at h; cases h
  | cons l0 rest =>
    rw [hls] at h
    dsimp only at h
    by_cases hm : (!containsSub "[COMMENT]".data l0) = true
    · rw [if_pos hm] at h; cases h
    · rw [if_neg hm] at h
      cases hph : parse_head (l0 :: rest) 0 with
      | error e => rw [hph] at h; cases h
      | ok pj =>
        rcases pj with ⟨parent0, i⟩
        rw [hph] at h
        dsimp only at h
        obtain ⟨hi, hpid0, _⟩ := parse_head_spec hph
        subst hi
        cases hdw : ((l0 :: rest).drop (0 + 5)).dropWhile (· != "Replies:".data) with
        | nil =>
          rw [hdw] at h
          dsimp only at h
          injection h with h'
          injection h' with h''
          have hp : p = { parent0 with comment := (List.intercalate ['\n']
              (((l0 :: rest).drop (0 + 5)).takeWhile (· != "Replies:".data))) } :=
            (congrArg (fun x => x.1) h'').symm
          have hrs : rs = [] := (congrArg (fun x => x.2) h'').symm
          subst hp
          subst hrs
          exact ⟨hpid0, rfl, by simp⟩
        | cons marker after =>
          rw [hdw] at h
          dsimp only at h
          cases hrl : repliesLoop parent0.comment_url after with
          | error e => rw [hrl] at h; cases h
          | ok reps =>
            rw [hrl] at h
            injection h with h'
            injection h' with h''
            have hp : p = { parent0 with comment := (List.intercalate ['\n']
                (((l0 :: rest).drop (0 + 5)).takeWhile (· != "Replies:".data))) } :=
              (congrArg (fun x => x.1) h'').symm
            have hrs : rs = reps := (congrArg (fun x => x.2) h'').symm
            subst hp
            subst hrs
            exact ⟨hpid0, rfl, repliesLoop_pid hrl⟩

/-- C6 counterexample: in the block
`[COMMENT] x / user / purl / CURL1 / now|like:1 / line1 / <blank> / line2`
the body's internal blank line is removed by the parser's blank-line
filter, so `comment` is `line1\nline2` and not the claimed
`line1\n\nline2` — blank lines inside the body are NOT preserved. -/
theorem claim_C6_cex :
    (parse_comment_block_dash
        "[COMMENT] x\nuser\npurl\nCURL1\nnow|like:1\nline1\n\nline2".data).map
      (fun o => o.map (fun pr => pr.1.comment)) =
      .ok (some "line1\nline2".data) ∧
    "line1\nline2".data ≠ "line1\n\nline2".data := by
  exact ⟨by decide, by decide⟩

/-- C6 (amended): for every block the dashboard parser accepts, the
parent's `comment` equals the block's NON-BLANK lines after the 5-line
header, up to (but not including) a literal `Replies:` line, each line
right-stripped, rejoined with newlines.  Internal newlines between
non-blank body lines are preserved, but blank lines are removed
everywhere in the body, not merely at its edges. -/
theorem claim_C6 (block : Str) (p : CRec) (rs : List CRec)
    (h : parse_comment_block_dash block = .ok (some (p, rs))) :
    p.comment = List.intercalate ['\n']
      (((dashLines block).drop 5).takeWhile (· != "Replies:".data)) :=
  (parse_block_dash_spec h).2.1

/-- Witness for C6 on a two-line body followed by a `Replies:` section. -/
theorem claim_C6_witness :
    (parse_comment_block_dash
        "[COMMENT] x\nuser\npurl\nCURL1\nnow|like:1\nline1\nline2\nReplies:\nnoise".data).map
      (fun o => o.map (fun pr => pr.1.comment)) = .ok (some "line1\nline2".data) := by
  have hpb : parse_comment_block_dash
      "[COMMENT] x\nuser\npurl\nCURL1\nnow|like:1\nline1\nline2\nReplies:\nnoise".data =
      .ok (some (({ username := [], profile_url := "purl".data,
                    comment_url := "CURL1".data, posted := "now".data,
                    edited := false, likes := 1, replies := 0,
                    comment := "line1\nline2".data,
                    parent_id := none } : CRec), ([] : List CRec))) := by decide
  have h := claim_C6 _ _ _ hpb
  rw [hpb]
  exact congrArg (fun c => Except.ok (some c)) h

theorem collectDash_spec :
    ∀ (bs : List Str) (tops children : List CRec),
    collectDash bs = .ok (tops, children) →
    (∀ p ∈ tops, p.parent_id = none) ∧
    (∀ r ∈ children, ∃ p, p ∈ tops ∧ r.parent_id = some p.comment_url) := by
  intro bs
  induction bs with
  | nil =>
    intro tops children h
    unfold collectDash at h
    injection h with h'
    injection h' with h1 h2
    refine ⟨?_, ?_⟩
    · intro p hp
      rw [← h1] at hp
      simp at hp
    · intro r hr
      rw [← h2] at hr
      simp at hr
  | cons b bs ih =>
    intro tops children h
    unfold collectDash at h
    cases hpb : parse_comment_block_dash b with
    | error e => rw [hpb] at h; cases h
    | ok o =>
      rw [hpb] at h
      cases o with
      | none => exact ih tops children h
      | some pr =>
        rcases pr with ⟨p0, rs0⟩
        dsimp only at h
        cases hc : collectDash bs with
        | error e => rw [hc] at h; cases h
        | ok tc =>
          rcases tc with ⟨tops0, children0⟩
          rw [hc] at h
          injection h with h'
          have ht : p0 :: tops0 = tops := congrArg (fun x => x.1) h'
          have hch : rs0 ++ children0 = children := congrArg (fun x => x.2) h'
          obtain ⟨hsp0, _, hrsp⟩ := parse_block_dash_spec hpb
          obtain ⟨iht, ihc⟩ := ih tops0 children0 hc
          constructor
          · intro p hp
            rw [← ht] at hp
            rcases List.mem_cons.mp hp with rfl | hm
            · exact hsp0
            · exact iht p hm
          · intro r hr
            rw [← hch] at hr
            rcases List.mem_append.mp hr with hm | hm
            · exact ⟨p0, by rw [← ht]; simp, hrsp r hm⟩
            · obtain ⟨p, hpm, hpe⟩ := ihc r hm
              exact ⟨p, by rw [← ht]; simp [hpm], hpe⟩

/-- C8 counterexample: on a dump whose two parent blocks share the
comment URL `SAME`, the reply's `parent_id` `SAME` matches TWO distinct
parent records in the output, so it does not resolve to exactly one. -/
theorem claim_C8_cex :
    parse_dump_dash cexDumpC8 = .ok cexOutC8 ∧
    (cexOutC8.getLast?.map (fun r => r.parent_id)) = some (some "SAME".data) ∧
    ¬ (∃! p : CRec, p ∈ cexOutC8 ∧ p.parent_id = none ∧
        p.comment_url = "SAME".data) := by
  refine ⟨by decide, by decide, ?_⟩
  rintro ⟨p, _, huniq⟩
  have e1 := huniq { username := [], profile_url := "p1".data,
                     comment_url := "SAME".data, posted := "now".data,
                     edited := false, likes := 0, replies := 0,
                     comment := "bodyA".data, parent_id := none }
    ⟨by decide, by decide, by decide⟩
  have e2 := huniq { username := [], profile_url := "p3".data,
                     comment_url := "SAME".data, posted := "now".data,
                     edited := false, likes := 0, replies := 0,
                     comment := "bodyB".data, parent_id := none }
    ⟨by decide, by decide, by decide⟩
  rw [← e2] at e1
  exact absurd e1 (by decide)

/-- C8 (amended): in every dashboard parser output, each reply's
`parent_id` equals the `comment_url` of a parent record (one with no
`parent_id`) present in the same output collection; when the parents'
comment URLs are pairwise distinct — the spec's stated invariant for
`comment_url` — that parent is unique.  The hand-built dump with one
parent and two `[REPLY]` sub-blocks yields exactly three records, both
replies carrying the parent's `comment_url` as `parent_id`. -/
theorem claim_C8 :
    (∀ (raw : Str) (out : List CRec), parse_dump_dash raw = .ok out →
      ∀ r ∈ out, ∀ pid : Str, r.parent_id = some pid →
      ∃ p, p ∈ out ∧ p.parent_id = none ∧ p.comment_url = pid) ∧
    (∀ (raw : Str) (out : List CRec), parse_dump_dash raw = .ok out →
      ((out.filter (fun p => p.parent_id == none)).map
        (fun p => p.comment_url)).Nodup →
      ∀ r ∈ out, ∀ pid : Str, r.parent_id = some pid →
      ∃! p, p ∈ out ∧ p.parent_id = none ∧ p.comment_url = pid) ∧
    parse_dump_dash exDumpC8 = .ok exOutC8 ∧
    exOutC8.length = 3 ∧
    exOutC8.map (fun r => (r.comment_url, r.parent_id)) =
      [("CURL1".data, none), ("CURL2".data, some "CURL1".data),
       ("CURL3".data, some "CURL1".data)] := by
  have hex : ∀ (raw : Str) (out : List CRec), parse_dump_dash raw = .ok out →
      ∀ r ∈ out, ∀ pid : Str, r.parent_id = some pid →
      ∃ p, p ∈ out ∧ p.parent_id = none ∧ p.comment_url = pid := by
    intro raw out h r hr pid hpid
    unfold parse_dump_dash at h
    cases hc : collectDash (blocksOfDash raw) with
    | error e => rw [hc] at h; cases h
    | ok tc =>
      rcases tc with ⟨tops, children⟩
      rw [hc] at h
      injection h with h'
      obtain ⟨htp, hcp⟩ := collectDash_spec _ tops children hc
      rw [← h'] at hr
      rcases List.mem_append.mp hr with hm | hm
      · rw [htp r hm] at hpid; cases hpid
      · obtain ⟨p, hpm, hpe⟩ := hcp r hm
        rw [hpe] at hpid
        injection hpid with hpid'
        exact ⟨p, by rw [← h']; exact List.mem_append.mpr (Or.inl hpm),
          htp p hpm, hpid'⟩
  refine ⟨hex, ?_, by decide, by decide, by decide⟩
  intro raw out h hnd r hr pid hpid
  obtain ⟨p, hpm, hpn, hpu⟩ := hex raw out h r hr pid hpid
  refine ⟨p, ⟨hpm, hpn, hpu⟩, ?_⟩
  rintro q ⟨hqm, hqn, hqu⟩
  have hqf : q ∈ out.filter (fun p => p.parent_id == none) := by
    rw [List.mem_filter]
    exact ⟨hqm, by rw [hqn]; rfl⟩
  have hpf : p ∈ out.filter (fun p => p.parent_id == none) := by
    rw [List.mem_filter]
    exact ⟨hpm, by rw [hpn]; rfl⟩
  exact List.inj_on_of_nodup_map hnd hqf hpf (by rw [hqu, hpu])

/-- Witness for C8 on the one-parent-two-replies dump: each reply's
`parent_id` `CURL1` resolves to a unique parent record. -/
theorem claim_C8_witness :
    ∃! p, p ∈ exOutC8 ∧ p.parent_id = none ∧ p.comment_url = "CURL1".data := by
  refine claim_C8.2.1 exDumpC8 exOutC8 (by decide) (by decide)
    ({ username := [], profile_url := "pu2".data, comment_url := "CURL2".data,
       posted := "now2".data, edited := false, likes := 0, replies := 0,
       comment := "rA".data, parent_id := some "CURL1".data }) (by decide)
    "CURL1".data (by decide)

/- ## Nonnegativity of the parsed counters -/

theorem digit_toNat_ge {c : Char} (h : c.isDigit = true) : 48 ≤ c.toNat := by
  simp [Char.isDigit] at h
  exact h.1

theorem int_foldl_nonneg :
    ∀ (ds : Str) (a : Int), (∀ c ∈ ds, c.isDigit = true) → 0 ≤ a →
    0 ≤ ds.foldl (fun a ch => a * 10 + ((ch.toNat : Int) - 48)) a := by
  intro ds
  induction ds with
  | nil => intro a _ ha; simpa using ha
  | cons c rest ih =>
    intro a hd ha
    rw [List.foldl_cons]
    refine ih _ (fun x hx => hd x (by simp [hx])) ?_
    have hc : (48 : Int) ≤ (c.toNat : Int) := by
      exact_mod_cast digit_toNat_ge (hd c (by simp))
    have h10 : (0 : Int) ≤ a * 10 := by positivity
    omega

theorem pyInt_nonneg {s : Str} {v : Int} (h : pyInt s = .ok v)
    (hm : '-' ∉ s) : 0 ≤ v := by
  unfold pyInt at h
  cases ht : pyStrip s with
  | nil => rw [ht] at h; cases h
  | cons c rest =>
    rw [ht] at h
    dsimp only at h
    by_cases hp : c = '+'
    · rw [if_pos hp] at h
      by_cases hcond : (!rest.isEmpty && rest.all Char.isDigit) = true
      · rw [if_pos hcond] at h
        injection h with h'
        rw [← h']
        have hall := (Bool.and_eq_true .. ▸ hcond).2
        exact int_foldl_nonneg rest 0 (fun x hx => List.all_eq_true.mp hall x hx)
          le_rfl
      · rw [if_neg hcond] at h; cases h
    · rw [if_neg hp] at h
      by_cases hmi : c = '-'
      · exfalso
        apply hm
        apply mem_of_mem_pyStrip
        rw [ht, hmi]
        simp
      · rw [if_neg hmi] at h
        by_cases hcond : (c :: rest).all Char.isDigit = true
        · rw [if_pos hcond] at h
          injection h with h'
          rw [← h']
          exact int_foldl_nonneg _ 0
            (fun x hx => List.all_eq_true.mp hcond x hx) le_rfl
        · rw [if_neg hcond] at h; cases h

theorem metaFoldSimple_nonneg :
    ∀ (ps : List Str) (l r l' r' : Int), (∀ p ∈ ps, '-' ∉ p) →
    metaFoldSimple ps l r = .ok (l', r') → 0 ≤ l → 0 ≤ r → 0 ≤ l' ∧ 0 ≤ r' := by
  intro ps
  induction ps with
  | nil =>
    intro l r l' r' _ h hl hr
    unfold metaFoldSimple at h
    injection h with h'
    have e1 : l = l' := congrArg (fun x => x.1) h'
    have e2 : r = r' := congrArg (fun x => x.2) h'
    exact ⟨e1 ▸ hl, e2 ▸ hr⟩
  | cons p rest ih =>
    intro l r l' r' hnm h hl hr
    unfold metaFoldSimple at h
    by_cases h1 : "like:".data.isPrefixOf p = true
    · rw [if_pos h1] at h
      cases hpi : pyInt (afterColon p) with
      | error e => rw [hpi] at h; cases h
      | ok v =>
        rw [hpi] at h
        have hv : 0 ≤ v := pyInt_nonneg hpi
          (fun hc => hnm p (by simp) (mem_of_mem_afterColon hc))
        exact ih _ _ _ _ (fun q hq => hnm q (by simp [hq])) h hv hr
    · rw [if_neg h1] at h
      by_cases h2 : "reply:".data.isPrefixOf p = true
      · rw [if_pos h2] at h
        cases hpi : pyInt (afterColon p) with
        | error e => rw [hpi] at h; cases h
        | ok v =>
          rw [hpi] at h
          have hv : 0 ≤ v := pyInt_nonneg hpi
            (fun hc => hnm p (by simp) (mem_of_mem_afterColon hc))
          exact ih _ _ _ _ (fun q hq => hnm q (by simp [hq])) h hl hv
      · rw [if_neg h2] at h
        exact ih _ _ _ _ (fun q hq => hnm q (by simp [hq])) h hl hr

theorem metaFoldDash_nonneg :
    ∀ (ps : List Str) (po : Str) (l r : Int) (po' : Str) (l' r' : Int),
    (∀ p ∈ ps, '-' ∉ p) →
    metaFoldDash ps po l r = .ok (po', l', r') → 0 ≤ l → 0 ≤ r →
    0 ≤ l' ∧ 0 ≤ r' := by
  intro ps
  induction ps with
  | nil =>
    intro po l r po' l' r' _ h hl hr
    unfold metaFoldDash at h
    injection h with h'
    have e1 : l = l' := congrArg (fun x => x.2.1) h'
    have e2 : r = r' := congrArg (fun x => x.2.2) h'
    exact ⟨e1 ▸ hl, e2 ▸ hr⟩
  | cons p rest ih =>
    intro po l r po' l' r' hnm h hl hr
    unfold metaFoldDash at h
    by_cases h1 : "like:".data.isPrefixOf p = true
    · rw [if_pos h1] at h
      cases hpi : pyInt (afterColon p) with
      | error e => rw [hpi] at h; cases h
      | ok v =>
        rw [hpi] at h
        have hv : 0 ≤ v := pyInt_nonneg hpi
          (fun hc => hnm p (by simp) (mem_of_mem_afterColon hc))
        exact ih _ _ _ _ _ _ (fun q hq => hnm q (by simp [hq])) h hv hr
    · rw [if_neg h1] at h
      by_cases h2 : "reply:".data.isPrefixOf p = true
      · rw [if_pos h2] at h
        cases hpi : pyInt (afterColon p) with
        | error e => rw [hpi] at h; cases h
        | ok v =>
          rw [hpi] at h
          have hv : 0 ≤ v := pyInt_nonneg hpi
            (fun hc => hnm p (by simp) (mem_of_mem_afterColon hc))
          exact ih _ _ _ _ _ _ (fun q hq => hnm q (by simp [hq])) h hl hv
      · rw [if_neg h2] at h
        exact ih _ _ _ _ _ _ (fun q hq => hnm q (by simp [hq])) h hl hr

theorem mem_stripEdited {meta : Str} {c : Char}
    (h : c ∈ (stripEdited meta).2) : c ∈ meta := by
  unfold stripEdited at h
  by_cases hc : containsSub "(edited)".data meta = true
  · rw [if_pos hc] at h
    exact mem_of_mem_replaceStr_nil (mem_of_mem_pyStrip h)
  · rw [if_neg hc] at h
    exact h

theorem no_minus_parts {meta : Str} (hm : '-' ∉ meta) :
    ∀ p ∈ (splitOnChar '|' (stripEdited meta).2).map pyStrip, '-' ∉ p := by
  intro p hp hc
  obtain ⟨p0, hp0, rfl⟩ := List.mem_map.mp hp
  exact hm (mem_stripEdited (mem_of_mem_splitOnChar hp0 (mem_of_mem_pyStrip hc)))

theorem parse_block_simple_spec {block : Str} {r : CRec}
    (h : parse_comment_block_simple block = .ok (some r)) :
    r.parent_id = none ∧
    r.comment = List.intercalate ['\n'] ((simpleLines block).drop 5) ∧
    ('-' ∉ (simpleLines block).getD 4 [] → 0 ≤ r.likes ∧ 0 ≤ r.replies) := by
  unfold parse_comment_block_simple at h
  cases hls : simpleLines block with
  | nil =>
    rw [hls] at h
    injection h with h'
    cases h'
  | cons l0 rest =>
    rw [hls] at h
    dsimp only at h
    by_cases hm : (!containsSub "[COMMENT]".data l0) = true
    · rw [if_pos hm] at h
      injection h with h'
      cases h'
    · rw [if_neg hm] at h
      cases rest with
      | nil => cases h
      | cons l1 r1 =>
        cases r1 with
        | nil => cases h
        | cons l2 r2 =>
          cases r2 with
          | nil => cases h
          | cons l3 r3 =>
            cases r3 with
            | nil => cases h
            | cons l4 body =>
              dsimp only at h
              cases hmeta : parseMetaSimple l4 with
              | error e => rw [hmeta] at h; cases h
              | ok t =>
                rcases t with ⟨ed, po, li, re⟩
                rw [hmeta] at h
                injection h with h'
                injection h' with h''
                refine ⟨?_, ?_, ?_⟩
                · rw [← h'']
                · rw [← h'']
                  rfl
                · intro hnm
                  rw [← h'']
                  dsimp only
                  unfold parseMetaSimple at hmeta
                  rcases hse : stripEdited l4 with ⟨ed0, meta2⟩
                  rw [hse] at hmeta
                  dsimp only at hmeta
                  cases hfold : metaFoldSimple
                      (((splitOnChar '|' meta2).map pyStrip).tail) 0 0 with
                  | error e => rw [hfold] at hmeta; cases hmeta
                  | ok lr =>
                    rcases lr with ⟨li0, re0⟩
                    rw [hfold] at hmeta
                    injection hmeta with hm'
                    have hli : li0 = li := congrArg (fun x => x.2.2.1) hm'
                    have hre : re0 = re := congrArg (fun x => x.2.2.2) hm'
                    have hnm4 : '-' ∉ l4 := by
                      simpa using hnm
                    have hparts : ∀ p ∈ ((splitOnChar '|' meta2).map pyStrip).tail,
                        '-' ∉ p := by
                      intro p hp
                      have h2 : (stripEdited l4).2 = meta2 := by rw [hse]
                      exact no_minus_parts hnm4 p (by
                        rw [h2]
                        exact mem_of_mem_tail hp)
                    have := metaFoldSimple_nonneg _ 0 0 li0 re0 hparts
                      hfold le_rfl le_rfl
                    exact ⟨hli ▸ this.1, hre ▸ this.2⟩

theorem collectSimple_spec :
    ∀ (bs : List Str) (out : List CRec), collectSimple bs = .ok out →
    ∀ r ∈ out, r.parent_id = none := by
  intro bs
  induction bs with
  | nil =>
    intro out h r hr
    unfold collectSimple at h
    injection h with h'
    rw [← h'] at hr
    simp at hr
  | cons b bs ih =>
    intro out h r hr
    unfold collectSimple at h
    cases hpb : parse_comment_block_simple b with
    | error e => rw [hpb] at h; cases h
    | ok c =>
      rw [hpb] at h
      cases hc : collectSimple bs with
      | error e => rw [hc] at h; cases h
      | ok rest =>
        rw [hc] at h
        injection h with h'
        rw [← h'] at hr
        cases c with
        | none => exact ih rest hc r hr
        | some r0 =>
          rcases List.mem_cons.mp hr with rfl | hm
          · exact (parse_block_simple_spec hpb).1
          · exact ih rest hc r hm

/-- C9 counterexample: on a block whose metadata line carries `like:-5`,
the simple parser calls `int("-5")` and records `likes = -5`, a negative
value, because `int` accepts a sign — so not every record has
non-negative counters for every input dump. -/
theorem claim_C9_cex :
    (parse_comment_block_simple
        "[COMMENT] x\nuser\npurl\nCURL1\nnow|like:-5\nbody".data).map
      (fun o => o.map (fun r => r.likes)) = .ok (some (-5)) ∧
    ¬ (0 : Int) ≤ -5 := by
  exact ⟨by decide, by decide⟩

/-- C9 (amended): every record either parser produces has integer `likes`
and `replies` that default to 0 and are non-negative whenever the
record's metadata header line contains no `-` character (the `int` calls
only see the digits after `like:`/`reply:`; a minus sign is the one way
to a negative counter). -/
theorem claim_C9 :
    (∀ (block : Str) (r : CRec),
      parse_comment_block_simple block = .ok (some r) →
      '-' ∉ (simpleLines block).getD 4 [] →
      0 ≤ r.likes ∧ 0 ≤ r.replies) ∧
    (∀ (arr : List Str) (idx : Nat) (r : CRec) (j : Nat),
      parse_head arr idx = .ok (r, j) →
      '-' ∉ arr.getD (idx + 4) [] →
      0 ≤ r.likes ∧ 0 ≤ r.replies) := by
  constructor
  · intro block r h hnm
    exact (parse_block_simple_spec h).2.2 hnm
  · intro arr idx r j h hnm
    unfold parse_head at h
    simp only [usernameToggle, Bool.false_eq_true, if_false] at h
    cases h2 : getItem arr (idx + 2) with
    | error e => rw [h2] at h; cases h
    | ok profile =>
      rw [h2] at h
      cases h3 : getItem arr (idx + 3) with
      | error e => rw [h3] at h; cases h
      | ok curl =>
        rw [h3] at h
        cases h4 : getItem arr (idx + 4) with
        | error e => rw [h4] at h; cases h
        | ok meta =>
          rw [h4] at h
          dsimp only at h
          cases hfold : metaFoldDash
              ((splitOnChar '|' (stripEdited meta).2).map pyStrip) [] 0 0 with
          | error e => rw [hfold] at h; cases h
          | ok plr =>
            rcases plr with ⟨po, plr2⟩
            rcases plr2 with ⟨li, re⟩
            rw [hfold] at h
            injection h with h'
            have hlik : li = r.likes := congrArg (fun x => x.1.likes) h'
            have hrep : re = r.replies := congrArg (fun x => x.1.replies) h'
            have hmeta : arr.getD (idx + 4) [] = meta := by
              unfold getItem at h4
              cases hg : arr.get? (idx + 4) with
              | none => rw [hg] at h4; cases h4
              | some x =>
                rw [hg] at h4
                injection h4 with h4'
                rw [List.getD_eq_getElem?_getD, ← List.get?_eq_getElem?, hg]
                exact h4'
            rw [hmeta] at hnm
            have := metaFoldDash_nonneg _ [] 0 0 po li re
              (fun p hp => no_minus_parts hnm p hp) hfold le_rfl le_rfl
            exact ⟨hlik ▸ this.1, hrep ▸ this.2⟩

/-- Witness for C9: a minus-free metadata line yields non-negative
counters in both variants. -/
theorem claim_C9_witness :
    (0 ≤ ({ username := "user".data, profile_url := "purl".data,
            comment_url := "CURL1".data, posted := "now".data,
            edited := false, likes := 7, replies := 2,
            comment := "body".data, parent_id := none } : CRec).likes) ∧
    (0 ≤ ({ username := [], profile_url := "p".data,
            comment_url := "c".data, posted := "now".data,
            edited := false, likes := 3, replies := 0,
            comment := [], parent_id := none } : CRec).replies) := by
  constructor
  · exact (claim_C9.1 "[COMMENT] x\nuser\npurl\nCURL1\nnow|like:7|reply:2\nbody".data
      _ (by decide) (by decide)).1
  · exact (claim_C9.2 ["[COMMENT]".data, "u".data, "p".data, "c".data,
      "now|like:3".data] 0 _ 5 (by decide) (by decide)).2

/-- C10: the simple variant's `parse_comment_block` emits at most one
record per block (its result type is a single optional record) and never
a reply record: it recognises no `Replies:` or `[REPLY]` markers, so on
every accepted block ALL lines after the 5-line header — any replies
section text included — are folded into the one record's `comment`, and
no record it or the simple variant's dump loop produces carries a
`parent_id`. -/
theorem claim_C10 :
    (∀ (block : Str) (r : CRec),
      parse_comment_block_simple block = .ok (some r) →
      r.parent_id = none ∧
      r.comment = List.intercalate ['\n'] ((simpleLines block).drop 5)) ∧
    (∀ (raw : Str) (out : List CRec), parse_dump_simple raw = .ok out →
      ∀ r ∈ out, r.parent_id = none) := by
  constructor
  · intro block r h
    exact ⟨(parse_block_simple_spec h).1, (parse_block_simple_spec h).2.1⟩
  · intro raw out h
    exact collectSimple_spec _ out h

/-- Witness for C10 on a block that contains a `Replies:` section: the
whole section is folded into `comment` and `parent_id` is absent. -/
theorem claim_C10_witness :
    parse_comment_block_simple
        "[COMMENT] x\nuser\npurl\nCURL1\nnow|reply:1\nbody\nReplies:\n[REPLY]\nu2".data =
      .ok (some ({ username := "user".data, profile_url := "purl".data,
                   comment_url := "CURL1".data, posted := "now".data,
                   edited := false, likes := 0, replies := 1,
                   comment := "body\nReplies:\n[REPLY]\nu2".data,
                   parent_id := none } : CRec)) ∧
    ({ username := "user".data, profile_url := "purl".data,
       comment_url := "CURL1".data, posted := "now".data,
       edited := false, likes := 0, replies := 1,
       comment := "body\nReplies:\n[REPLY]\nu2".data,
       parent_id := none } : CRec).parent_id = none := by
  refine ⟨by decide, ?_⟩
  exact (claim_C10.1
    "[COMMENT] x\nuser\npurl\nCURL1\nnow|reply:1\nbody\nReplies:\n[REPLY]\nu2".data
    _ (by decide)).1

/- ## Invariants of the dedupe loop -/

theorem normFalsy_eq_isNone (u : Str) :
    normFalsy (normalize_url u) = (normalize_url u).isNone := by
  cases hn : normalize_url u with
  | none => rfl
  | some n =>
    have := normalize_url_ne_nil hn
    simp [normFalsy, this]

theorem dedupeGo_spec :
    ∀ (urls seen cleaned malformed dups : List Str),
    (∀ x, x ∈ seen ↔ x ∈ cleaned) → cleaned.Nodup → (∀ x ∈ dups, x ∈ cleaned) →
    (dedupeGo urls seen cleaned malformed dups).1.Nodup ∧
    (dedupeGo urls seen cleaned malformed dups).2.1 =
      malformed ++ urls.filter (fun u => normFalsy (normalize_url u)) ∧
    (dedupeGo urls seen cleaned malformed dups).2.1.length +
      (dedupeGo urls seen cleaned malformed dups).2.2.length +
      (dedupeGo urls seen cleaned malformed dups).1.length =
      malformed.length + dups.length + cleaned.length + urls.length ∧
    (∀ x ∈ (dedupeGo urls seen cleaned malformed dups).2.2,
      x ∈ (dedupeGo urls seen cleaned malformed dups).1) ∧
    (∀ x ∈ cleaned, x ∈ (dedupeGo urls seen cleaned malformed dups).1) ∧
    (∀ u n, u ∈ urls → normalize_url u = some n → n ≠ [] →
      n ∈ (dedupeGo urls seen cleaned malformed dups).1) ∧
    (∀ n ∈ (dedupeGo urls seen cleaned malformed dups).1,
      n ∈ cleaned ∨ ∃ u ∈ urls, normalize_url u = some n) := by
  intro urls
  induction urls with
  | nil =>
    intro seen cleaned malformed dups hiff hnd hdc
    unfold dedupeGo
    refine ⟨hnd, by simp, by simp, hdc, fun x hx => hx, ?_, fun n hn => Or.inl hn⟩
    intro u n hu
    simp at hu
  | cons u rest ih =>
    intro seen cleaned malformed dups hiff hnd hdc
    unfold dedupeGo
    cases hn : normalize_url u with
    | none =>
      dsimp only
      obtain ⟨c1, c2, c3, c4, c5, c6, c7⟩ := ih seen cleaned (malformed ++ [u]) dups hiff hnd hdc
      have hfil : (u :: rest).filter (fun v => normFalsy (normalize_url v)) =
          u :: rest.filter (fun v => normFalsy (normalize_url v)) := by
        rw [List.filter_cons]
        simp [hn, normFalsy]
      refine ⟨c1, ?_, ?_, c4, c5, ?_, ?_⟩
      · rw [c2, hfil]
        simp
      · rw [c3]
        simp
        omega
      · intro u' n' hu' hn' hne
        rcases List.mem_cons.mp hu' with rfl | hm
        · rw [hn] at hn'; cases hn'
        · exact c6 u' n' hm hn' hne
      · intro n hnm
        rcases c7 n hnm with h | ⟨v, hv, hnv⟩
        · exact Or.inl h
        · exact Or.inr ⟨v, by simp [hv], hnv⟩
    | some n =>
      dsimp only
      by_cases hne : n = []
      · rw [if_pos hne]
        obtain ⟨c1, c2, c3, c4, c5, c6, c7⟩ := ih seen cleaned (malformed ++ [u]) dups hiff hnd hdc
        have hfil : (u :: rest).filter (fun v => normFalsy (normalize_url v)) =
            u :: rest.filter (fun v => normFalsy (normalize_url v)) := by
          rw [List.filter_cons]
          simp [hn, normFalsy, hne]
        refine ⟨c1, ?_, ?_, c4, c5, ?_, ?_⟩
        · rw [c2, hfil]
          simp
        · rw [c3]
          simp
          omega
        · intro u' n' hu' hn' hne'
          rcases List.mem_cons.mp hu' with rfl | hm
          · rw [hn] at hn'
            injection hn' with he
            exact absurd (he.symm ▸ hne) hne'
          · exact c6 u' n' hm hn' hne'
        · intro m hm
          rcases c7 m hm with h | ⟨v, hv, hnv⟩
          · exact Or.inl h
          · exact Or.inr ⟨v, by simp [hv], hnv⟩
      · rw [if_neg hne]
        by_cases hseen : n ∈ seen
        · rw [if_pos hseen]
          have hdc' : ∀ x ∈ dups ++ [n], x ∈ cleaned := by
            intro x hx
            rcases List.mem_append.mp hx with h | h
            · exact hdc x h
            · simp at h
              exact (hiff x).mp (h ▸ hseen)
          obtain ⟨c1, c2, c3, c4, c5, c6, c7⟩ := ih seen cleaned malformed (dups ++ [n]) hiff hnd hdc'
          have hfil : (u :: rest).filter (fun v => normFalsy (normalize_url v)) =
              rest.filter (fun v => normFalsy (normalize_url v)) := by
            rw [List.filter_cons]
            simp [hn, normFalsy, hne]
          refine ⟨c1, ?_, ?_, c4, c5, ?_, ?_⟩
          · rw [c2, hfil]
          · rw [c3]
            simp
            omega
          · intro u' n' hu' hn' hne'
            rcases List.mem_cons.mp hu' with rfl | hm
            · rw [hn] at hn'
              injection hn' with he
              exact he ▸ c5 n ((hiff n).mp hseen)
            · exact c6 u' n' hm hn' hne'
          · intro m hm
            rcases c7 m hm with h | ⟨v, hv, hnv⟩
            · exact Or.inl h
            · exact Or.inr ⟨v, by simp [hv], hnv⟩
        · rw [if_neg hseen]
          have hncl : n ∉ cleaned := fun hc => hseen ((hiff n).mpr hc)
          have hiff' : ∀ x, x ∈ n :: seen ↔ x ∈ cleaned ++ [n] := by
            intro x
            simp only [List.mem_cons, List.mem_append, List.mem_singleton]
            rw [hiff x]
            tauto
          have hnd' : (cleaned ++ [n]).Nodup := by
            rw [List.nodup_append]
            exact ⟨hnd, List.nodup_singleton n, by
              intro x hx hx'
              simp at hx'
              exact hncl (hx' ▸ hx)⟩
          have hdc' : ∀ x ∈ dups, x ∈ cleaned ++ [n] := by
            intro x hx
            exact List.mem_append.mpr (Or.inl (hdc x hx))
          obtain ⟨c1, c2, c3, c4, c5, c6, c7⟩ :=
            ih (n :: seen) (cleaned ++ [n]) malformed dups hiff' hnd' hdc'
          have hfil : (u :: rest).filter (fun v => normFalsy (normalize_url v)) =
              rest.filter (fun v => normFalsy (normalize_url v)) := by
            rw [List.filter_cons]
            simp [hn, normFalsy, hne]
          refine ⟨c1, ?_, ?_, c4, ?_, ?_, ?_⟩
          · rw [c2, hfil]
          · rw [c3]
            simp
            omega
          · intro x hx
            exact c5 x (List.mem_append.mpr (Or.inl hx))
          · intro u' n' hu' hn' hne'
            rcases List.mem_cons.mp hu' with rfl | hm
            · rw [hn] at hn'
              injection hn' with he
              exact he ▸ c5 n (List.mem_append.mpr (Or.inr (by simp)))
            · exact c6 u' n' hm hn' hne'
          · intro m hm
            rcases c7 m hm with h | ⟨v, hv, hnv⟩
            · rcases List.mem_append.mp h with h' | h'
              · exact Or.inl h'
              · simp at h'
                exact Or.inr ⟨u, by simp, h' ▸ hn⟩
            · exact Or.inr ⟨v, by simp [hv], hnv⟩

theorem probeLoop_spec (probe : Str → ProbeOutcome) :
    ∀ l : List Str, probeLoop probe l =
      (l.filter (is_url_reachable probe),
       l.filter (fun u => !is_url_reachable probe u), l) := by
  intro l
  induction l with
  | nil => rfl
  | cons u rest ih =>
    unfold probeLoop
    rw [ih]
    by_cases hu : is_url_reachable probe u = true
    · simp [hu, List.filter_cons]
    · rw [Bool.not_eq_true] at hu
      simp [hu, List.filter_cons]

theorem resolve_eq (probe : Str → ProbeOutcome) (urls : List Str) :
    resolve probe urls =
      ⟨(dedupeGo urls [] [] [] []).1, (dedupeGo urls [] [] [] []).2.1,
       (dedupeGo urls [] [] [] []).2.2,
       (dedupeGo urls [] [] [] []).1.filter (is_url_reachable probe),
       (dedupeGo urls [] [] [] []).1.filter (fun u => !is_url_reachable probe u),
       (dedupeGo urls [] [] [] []).1⟩ := by
  unfold resolve dedupe
  rcases h : dedupeGo urls [] [] [] [] with ⟨cl, mal, dup⟩
  dsimp only
  rw [probeLoop_spec]

/-- C4: `resolve` accounts for every input exactly once across four
order-preserving sequences: a raw string canonicalizing to `None` lands
in `malformed` (and those are exactly `malformed`'s entries, in input
order); a canonical form already seen is appended to `duplicates` while
its first-seen copy alone is retained in the duplicate-free `cleaned`;
and each unique canonical form is probed into exactly one of `reachable`
and `unreachable`, which partition `cleaned` in order.  In particular,
`resolve` on `[A, A']` with `A` and `A'` canonicalizing to the same id
`X` keeps exactly one entry in `cleaned` and records the second
occurrence in `duplicates`. -/
theorem claim_C4 :
    (∀ (probe : Str → ProbeOutcome) (urls : List Str),
      (resolve probe urls).cleaned.Nodup ∧
      (resolve probe urls).malformed =
        urls.filter (fun u => (normalize_url u).isNone) ∧
      (resolve probe urls).malformed.length +
        (resolve probe urls).duplicates.length +
        (resolve probe urls).cleaned.length = urls.length ∧
      (∀ x ∈ (resolve probe urls).duplicates, x ∈ (resolve probe urls).cleaned) ∧
      (∀ u n, u ∈ urls → normalize_url u = some n →
        n ∈ (resolve probe urls).cleaned) ∧
      (∀ n ∈ (resolve probe urls).cleaned, ∃ u ∈ urls, normalize_url u = some n) ∧
      (resolve probe urls).reachable =
        (resolve probe urls).cleaned.filter (is_url_reachable probe) ∧
      (resolve probe urls).unreachable =
        (resolve probe urls).cleaned.filter (fun u => !is_url_reachable probe u) ∧
      (resolve probe urls).reachable.length +
        (resolve probe urls).unreachable.length =
        (resolve probe urls).cleaned.length ∧
      (∀ n ∈ (resolve probe urls).cleaned,
        (n ∈ (resolve probe urls).reachable ∧
          n ∉ (resolve probe urls).unreachable) ∨
        (n ∈ (resolve probe urls).unreachable ∧
          n ∉ (resolve probe urls).reachable))) ∧
    (∀ (A A' X : Str), normalize_url A = some X → normalize_url A' = some X →
      dedupe [A, A'] = ([X], [], [X])) := by
  constructor
  · intro probe urls
    obtain ⟨c1, c2, c3, c4, _, c6, c7⟩ :=
      dedupeGo_spec urls [] [] [] [] (by simp) List.nodup_nil (by simp)
    rw [resolve_eq probe urls]
    dsimp only
    have hmal : (dedupeGo urls [] [] [] []).2.1 =
        urls.filter (fun u => (normalize_url u).isNone) := by
      rw [c2]
      simp only [List.nil_append]
      exact List.filter_congr (fun u _ => normFalsy_eq_isNone u)
    refine ⟨c1, hmal, ?_, c4, ?_, ?_, rfl, rfl, ?_, ?_⟩
    · have := c3
      simp at this
      rw [hmal] at this
      rw [hmal]
      omega
    · intro u n hu hn
      exact c6 u n hu hn (normalize_url_ne_nil hn)
    · intro n hn
      rcases c7 n hn with h | h
      · simp at h
      · exact h
    · rw [← List.length_append]
      exact (List.filter_append_perm (is_url_reachable probe) _).length_eq
    · intro n hn
      by_cases hru : is_url_reachable probe n = true
      · left
        constructor
        · rw [List.mem_filter]; exact ⟨hn, hru⟩
        · intro hmem
          rw [List.mem_filter] at hmem
          rw [hru] at hmem
          simp at hmem
      · right
        rw [Bool.not_eq_true] at hru
        constructor
        · rw [List.mem_filter]
          exact ⟨hn, by rw [hru]; rfl⟩
        · intro hmem
          rw [List.mem_filter] at hmem
          rw [hru] at hmem
          simp at hmem
  · intro A A' X hA hA'
    have hXne := normalize_url_ne_nil hA
    unfold dedupe
    unfold dedupeGo
    rw [hA]
    dsimp only
    rw [if_neg hXne, if_neg (by simp)]
    unfold dedupeGo
    rw [hA']
    dsimp only
    rw [if_neg hXne, if_pos (by simp)]
    unfold dedupeGo
    rfl

/-- Witness for C4 on a duplicate pair: the `youtu.be` and `shorts` forms
of the demo id collapse to one cleaned entry plus one recorded
duplicate. -/
theorem claim_C4_witness :
    dedupe ["https://youtu.be/cpcfdwnf4M8".data,
            "https://www.youtube.com/shorts/cpcfdwnf4M8".data] =
      (["https://www.youtube.com/watch?v=cpcfdwnf4M8".data], [],
       ["https://www.youtube.com/watch?v=cpcfdwnf4M8".data]) :=
  claim_C4.2 "https://youtu.be/cpcfdwnf4M8".data
    "https://www.youtube.com/shorts/cpcfdwnf4M8".data
    "https://www.youtube.com/watch?v=cpcfdwnf4M8".data (by decide) (by decide)

/-- C5: every cleaned URL is probed exactly once (the probe trace is
exactly the duplicate-free `cleaned` list); a transport-level probe
failure makes `is_url_reachable` return `false` — by construction a
total function, so nothing is raised and nothing retried — classifying
the URL as unreachable; and an empty `reachable` list makes `main` stop
in its explicit no-videos state, doing no further work. -/
theorem claim_C5 :
    (∀ (probe : Str → ProbeOutcome) (urls : List Str),
      (resolve probe urls).probed = (resolve probe urls).cleaned ∧
      (resolve probe urls).cleaned.Nodup ∧
      (∀ u ∈ (resolve probe urls).cleaned, probe u = .transportError →
        u ∈ (resolve probe urls).unreachable ∧
        u ∉ (resolve probe urls).reachable) ∧
      ((resolve probe urls).reachable = [] ↔
        main_run probe urls = .noVideos)) ∧
    (∀ (probe : Str → ProbeOutcome) (u : Str), probe u = .transportError →
      is_url_reachable probe u = false) := by
  constructor
  · intro probe urls
    obtain ⟨c1, _, _, _, _, _, _⟩ :=
      dedupeGo_spec urls [] [] [] [] (by simp) List.nodup_nil (by simp)
    have hres := resolve_eq probe urls
    refine ⟨by rw [hres], by rw [hres]; exact c1, ?_, ?_⟩
    · intro u hu htr
      have hur : is_url_reachable probe u = false := by
        unfold is_url_reachable
        rw [htr]
      rw [hres] at hu ⊢
      constructor
      · rw [List.mem_filter]
        exact ⟨hu, by rw [hur]; rfl⟩
      · intro hmem
        rw [List.mem_filter] at hmem
        rw [hur] at hmem
        simp at hmem
    · unfold main_run
      by_cases hre : (resolve probe urls).reachable = []
      · simp [hre]
      · simp [hre]
  · intro probe u htr
    unfold is_url_reachable
    rw [htr]

/-- Witness for C5: with a probe that always fails at transport level,
the demo URL is cleaned, probed once, classified unreachable, and `main`
stops with no videos to process. -/
theorem claim_C5_witness :
    (resolve (fun _ => ProbeOutcome.transportError)
        ["https://youtu.be/cpcfdwnf4M8".data]).probed =
      (resolve (fun _ => ProbeOutcome.transportError)
        ["https://youtu.be/cpcfdwnf4M8".data]).cleaned ∧
    "https://www.youtube.com/watch?v=cpcfdwnf4M8".data ∈
      (resolve (fun _ => ProbeOutcome.transportError)
        ["https://youtu.be/cpcfdwnf4M8".data]).unreachable ∧
    main_run (fun _ => ProbeOutcome.transportError)
      ["https://youtu.be/cpcfdwnf4M8".data] = .noVideos := by
  have h := (claim_C5.1 (fun _ => ProbeOutcome.transportError)
    ["https://youtu.be/cpcfdwnf4M8".data])
  refine ⟨h.1, ?_, ?_⟩
  · exact (h.2.2.1 "https://www.youtube.com/watch?v=cpcfdwnf4M8".data
      (by decide) rfl).1
  · exact h.2.2.2.mp (by decide)
